import Mathlib

/-!
Verification of the word-ladder pathfinding and scoring engine.

Words are modelled as lists of characters (`Word := List Char`), mirroring
Python strings.  The dictionary (`word_set`) and the banned set are modelled
as lists of words; membership tests mirror Python's set membership.  All
definitions follow the structure of `word_ladder_game.py`.
-/

namespace WordLadderGame

/-- A word is a sequence of characters, as in the Python source. -/
abbrev Word := List Char

/-- `str.lower()` applied to a word (character-wise ASCII lowering). -/
def lowerWord (w : Word) : Word := w.map Char.toLower

/-- `string.ascii_lowercase`. -/
def ascii_lowercase : List Char :=
  ['a','b','c','d','e','f','g','h','i','j','k','l','m',
   'n','o','p','q','r','s','t','u','v','w','x','y','z']

/-- A word all of whose characters are ASCII lowercase letters. -/
def Lowercase (w : Word) : Prop := ∀ c ∈ w, c ∈ ascii_lowercase

instance (w : Word) : Decidable (Lowercase w) := by
  unfold Lowercase; infer_instance

/-- A dictionary consisting only of ASCII-lowercase words, as produced by the
`__init__` filter over the NLTK corpus. -/
def LowercaseDict (ws : List Word) : Prop := ∀ w ∈ ws, Lowercase w

instance (ws : List Word) : Decidable (LowercaseDict ws) := by
  unfold LowercaseDict; infer_instance

/-- `word[:i] + c + word[i+1:]`: replace the character at position `i` by `c`
(appends `c` when `i ≥ len word`, exactly like Python slicing). -/
def substitute (w : Word) (i : ℕ) (c : Char) : Word :=
  match w, i with
  | [], _ => [c]
  | _ :: t, 0 => c :: t
  | h :: t, i + 1 => h :: substitute t i c

/-- The recursive `substitute` agrees with the slicing form
`word[:i] + c + word[i+1:]`. -/
theorem substitute_eq_slices (w : Word) (i : ℕ) (c : Char) :
    substitute w i c = w.take i ++ c :: w.drop (i + 1) := by
  induction w generalizing i with
  | nil => cases i <;> rfl
  | cons h t ih =>
    cases i with
    | zero => rfl
    | succ i => simp [substitute, ih]

/-- `is_valid_word`: the lower-cased word is in the dictionary and not banned. -/
def is_valid_word (ws banned : List Word) (word : Word) : Bool :=
  decide (lowerWord word ∈ ws ∧ lowerWord word ∉ banned)

/-- `get_neighbors`: all single-letter substitutions of `word` that are valid
dictionary words (and not banned), in generation order
(position-major, letter-minor). -/
def get_neighbors (ws banned : List Word) (word : Word) : List Word :=
  (List.range word.length).flatMap fun i =>
    ascii_lowercase.filterMap fun c =>
      let new_word := substitute word i c
      if new_word ≠ word ∧ is_valid_word ws banned new_word = true ∧ new_word ∉ banned
      then some new_word else none

/-- `heuristic`: the sum of alphabetic positions of the letters of `current`;
`float('inf')` (here `⊤`) when the lengths differ. -/
def heuristic (current target : Word) : WithTop ℕ :=
  if current.length ≠ target.length then ⊤
  else ((current.map fun c => c.toLower.toNat - 'a'.toNat + 1).sum : ℕ)

/-- Modelled from the spec's words ("alphabetic position, A=1…Z=26"): the
1-based position of a letter in the alphabet, used to compare the source's
`heuristic` against the specified formula. -/
def specAlphabeticPosition (c : Char) : ℕ := ascii_lowercase.indexOf c + 1

/- ### Basic facts about `substitute` and `get_neighbors` -/

theorem substitute_length {w : Word} {i : ℕ} (c : Char) (h : i < w.length) :
    (substitute w i c).length = w.length := by
  induction w generalizing i with
  | nil => simp at h
  | cons hd t ih =>
    cases i with
    | zero => rfl
    | succ i =>
      simp only [substitute, List.length_cons]
      simp only [List.length_cons, Nat.succ_lt_succ_iff] at h
      rw [ih h]

theorem substitute_get {w : Word} {i : ℕ} (c : Char) (h : i < w.length) :
    (substitute w i c).get ⟨i, by rw [substitute_length c h]; exact h⟩ = c := by
  induction w generalizing i with
  | nil => simp at h
  | cons hd t ih =>
    cases i with
    | zero => rfl
    | succ i =>
      simp only [List.length_cons, Nat.succ_lt_succ_iff] at h
      exact ih h

theorem substitute_substitute {w : Word} {i : ℕ} (c : Char) (h : i < w.length) :
    substitute (substitute w i c) i (w.get ⟨i, h⟩) = w := by
  induction w generalizing i with
  | nil => simp at h
  | cons hd t ih =>
    cases i with
    | zero => rfl
    | succ i =>
      simp only [List.length_cons, Nat.succ_lt_succ_iff] at h
      simp only [substitute, List.get]
      rw [ih h]

theorem mem_substitute {w : Word} {i : ℕ} {c d : Char}
    (hd : d ∈ substitute w i c) : d ∈ w ∨ d = c := by
  induction w generalizing i with
  | nil =>
    simp only [substitute, List.mem_singleton] at hd
    exact Or.inr hd
  | cons hd' t ih =>
    cases i with
    | zero =>
      rcases List.mem_cons.mp hd with h | h
      · exact Or.inr h
      · exact Or.inl (List.mem_cons_of_mem _ h)
    | succ i =>
      rcases List.mem_cons.mp hd with h | h
      · exact Or.inl (h ▸ List.mem_cons_self _ _)
      · rcases ih h with h' | h'
        · exact Or.inl (List.mem_cons_of_mem _ h')
        · exact Or.inr h'

/-- Characterisation of membership in `get_neighbors`. -/
theorem mem_get_neighbors_iff {ws banned : List Word} {a b : Word} :
    b ∈ get_neighbors ws banned a ↔
      ∃ i, i < a.length ∧ ∃ c ∈ ascii_lowercase, b = substitute a i c ∧
        b ≠ a ∧ is_valid_word ws banned b = true ∧ b ∉ banned := by
  unfold get_neighbors
  simp only [List.mem_flatMap, List.mem_filterMap, List.mem_range]
  constructor
  · rintro ⟨i, hi, c, hc, h⟩
    split at h
    · rename_i hcond
      cases h
      exact ⟨i, hi, c, hc, rfl, hcond.1, hcond.2.1, hcond.2.2⟩
    · cases h
  · rintro ⟨i, hi, c, hc, rfl, hne, hv, hnb⟩
    refine ⟨i, hi, c, hc, ?_⟩
    rw [if_pos ⟨hne, hv, hnb⟩]

theorem lowerWord_eq_self {w : Word} (h : Lowercase w) : lowerWord w = w := by
  have hfix : ∀ c ∈ ascii_lowercase, c.toLower = c := by decide
  unfold lowerWord
  induction w with
  | nil => rfl
  | cons c t ih =>
    simp only [List.map_cons]
    rw [hfix c (h c (List.mem_cons_self _ _)),
      ih (fun d hd => h d (List.mem_cons_of_mem _ hd))]

theorem lowercase_substitute {w : Word} {i : ℕ} {c : Char}
    (hw : Lowercase w) (hc : c ∈ ascii_lowercase) :
    Lowercase (substitute w i c) := by
  intro d hd
  rcases mem_substitute hd with h | h
  · exact hw d h
  · exact h ▸ hc

/-- One direction of neighbour symmetry: if `b` arises from `a` by a valid
single-letter substitution, then substituting back reproduces `a` among the
neighbours of `b` (for lowercase, valid `a`). -/
theorem mem_get_neighbors_symm {ws banned : List Word} {a b : Word}
    (ha_lc : Lowercase a) (hav : is_valid_word ws banned a = true)
    (hmem : b ∈ get_neighbors ws banned a) :
    a ∈ get_neighbors ws banned b := by
  rcases mem_get_neighbors_iff.mp hmem with ⟨i, hi, c, _, rfl, hne, _, _⟩
  have hlen : (substitute a i c).length = a.length := substitute_length c hi
  have hanb : a ∉ banned := by
    have := of_decide_eq_true hav
    rw [lowerWord_eq_self ha_lc] at this
    exact this.2
  refine mem_get_neighbors_iff.mpr ⟨i, by rw [hlen]; exact hi, a.get ⟨i, hi⟩,
    ha_lc _ (a.get_mem _ _), ?_, fun h => hne h.symm, hav, hanb⟩
  rw [substitute_substitute c hi]

/-- **C3**: for lowercase, valid, unbanned words `a` and `b`,
`b ∈ get_neighbors a ↔ a ∈ get_neighbors b`. -/
theorem C3_get_neighbors_symmetric (ws banned : List Word) (a b : Word)
    (ha_lc : Lowercase a) (hb_lc : Lowercase b)
    (hav : is_valid_word ws banned a = true)
    (hbv : is_valid_word ws banned b = true) :
    b ∈ get_neighbors ws banned a ↔ a ∈ get_neighbors ws banned b :=
  ⟨mem_get_neighbors_symm ha_lc hav, mem_get_neighbors_symm hb_lc hbv⟩

/-- Witness for C3 at a concrete corpus: with `ws = [cat, bat]`, `bat` is a
neighbour of `cat` and, symmetrically, `cat` is a neighbour of `bat`. -/
theorem C3_get_neighbors_symmetric_witness :
    Lowercase ['c','a','t'] ∧ Lowercase ['b','a','t'] ∧
    is_valid_word [['c','a','t'], ['b','a','t']] [] ['c','a','t'] = true ∧
    is_valid_word [['c','a','t'], ['b','a','t']] [] ['b','a','t'] = true ∧
    (['b','a','t'] ∈ get_neighbors [['c','a','t'], ['b','a','t']] [] ['c','a','t'] ↔
      ['c','a','t'] ∈ get_neighbors [['c','a','t'], ['b','a','t']] [] ['b','a','t']) :=
  ⟨by decide, by decide, by decide, by decide,
    C3_get_neighbors_symmetric _ _ _ _ (by decide) (by decide) (by decide) (by decide)⟩

/-- **C8 counterexample**: `heuristic` does not always equal the letter-sum of
`current`, and it does depend on `target`: when the lengths differ the source
returns `float('inf')`. -/
theorem C8_heuristic_counterexample :
    heuristic ['c','a','t'] ['a','t'] ≠ ((3 + 1 + 20 : ℕ) : WithTop ℕ) ∧
    heuristic ['c','a','t'] ['a','t'] ≠ heuristic ['c','a','t'] ['d','o','g'] := by
  constructor <;> decide

/-- **C8 (amended)**: for a lowercase `current` and any `target` of the same
length, `heuristic current target` is the sum of the alphabetic positions
(a=1 … z=26) of the letters of `current`, and the value is the same for every
target of that length (it depends on `current` only).  (When the lengths
differ the source instead returns `float('inf')`.) -/
theorem C8_heuristic_letter_sum (current target : Word)
    (h_lc : Lowercase current) (hlen : current.length = target.length) :
    heuristic current target = ((current.map specAlphabeticPosition).sum : ℕ) ∧
    ∀ t2 : Word, t2.length = current.length →
      heuristic current t2 = heuristic current target := by
  have hpos : ∀ c ∈ ascii_lowercase,
      c.toLower.toNat - 'a'.toNat + 1 = specAlphabeticPosition c := by decide
  have hsum : ∀ w : Word, Lowercase w →
      (w.map fun c => c.toLower.toNat - 'a'.toNat + 1).sum =
        (w.map specAlphabeticPosition).sum := by
    intro w
    induction w with
    | nil => intro _; rfl
    | cons c t ih =>
      intro hw
      simp only [List.map_cons, List.sum_cons]
      rw [hpos c (hw c (List.mem_cons_self _ _)),
        ih (fun d hd => hw d (List.mem_cons_of_mem _ hd))]
  constructor
  · unfold heuristic
    rw [if_neg (by omega)]
    exact congrArg (fun n : ℕ => (n : WithTop ℕ)) (hsum current h_lc)
  · intro t2 h2
    unfold heuristic
    rw [if_neg (by omega), if_neg (by omega)]

/-- Witness for C8 (amended) at `current = cat`, `target = dog`:
the heuristic value is 3 + 1 + 20 = 24. -/
theorem C8_heuristic_letter_sum_witness :
    Lowercase ['c','a','t'] ∧ (['c','a','t'] : Word).length = (['d','o','g'] : Word).length ∧
    heuristic ['c','a','t'] ['d','o','g'] = ((24 : ℕ) : WithTop ℕ) :=
  ⟨by decide, by decide,
    ((C8_heuristic_letter_sum ['c','a','t'] ['d','o','g'] (by decide) (by decide)).1).trans
      (by decide)⟩

/- ### Priority-queue entries and the `heapq` frontier

Python's `heapq` pops a minimal tuple under lexicographic tuple comparison.
Each search algorithm pushes a different tuple shape; we give each its own
entry structure, ordered by the lexicographic order on its tuple of fields
(numbers compare as numbers, words and paths compare lexicographically, as
Python compares strings and lists of strings). -/

/-- A `uniform_cost_search` frontier entry `(cost, word, path)`. -/
structure UEntry where
  cost : ℕ
  word : Word
  path : List Word
deriving DecidableEq

/-- An `a_star_search` frontier entry `(priority, cost, word, path)`. -/
structure AEntry where
  priority : WithTop ℕ
  cost : ℕ
  word : Word
  path : List Word
deriving DecidableEq

/-- A `greedy_best_first_search` frontier entry `(priority, word, path)`. -/
structure GEntry where
  priority : WithTop ℕ
  word : Word
  path : List Word
deriving DecidableEq

def UEntry.key (e : UEntry) : ℕ ×ₗ (Word ×ₗ List Word) :=
  toLex (e.cost, toLex (e.word, e.path))

def AEntry.key (e : AEntry) : WithTop ℕ ×ₗ (ℕ ×ₗ (Word ×ₗ List Word)) :=
  toLex (e.priority, toLex (e.cost, toLex (e.word, e.path)))

def GEntry.key (e : GEntry) : WithTop ℕ ×ₗ (Word ×ₗ List Word) :=
  toLex (e.priority, toLex (e.word, e.path))

instance : LinearOrder UEntry :=
  LinearOrder.lift' UEntry.key (by
    intro a b h
    cases a; cases b
    simp only [UEntry.key, toLex_inj, Prod.mk.injEq] at h
    simp [h.1, h.2.1, h.2.2])

instance : LinearOrder AEntry :=
  LinearOrder.lift' AEntry.key (by
    intro a b h
    cases a; cases b
    simp only [AEntry.key, toLex_inj, Prod.mk.injEq] at h
    simp [h.1, h.2.1, h.2.2.1, h.2.2.2])

instance : LinearOrder GEntry :=
  LinearOrder.lift' GEntry.key (by
    intro a b h
    cases a; cases b
    simp only [GEntry.key, toLex_inj, Prod.mk.injEq] at h
    simp [h.1, h.2.1, h.2.2])

/-- `heapq.heappop`: remove and return a minimal element (the first minimal
one), together with the remaining elements in their original order. -/
def popMin {α : Type} [LinearOrder α] : List α → Option (α × List α)
  | [] => none
  | e :: es =>
    match popMin es with
    | none => some (e, [])
    | some (m, rest) => if e ≤ m then some (e, es) else some (m, e :: rest)

theorem popMin_eq_none_iff {α : Type} [LinearOrder α] {l : List α} :
    popMin l = none ↔ l = [] := by
  cases l with
  | nil => simp [popMin]
  | cons e es =>
    constructor
    · intro h
      cases hrec : popMin es with
      | none => simp [popMin, hrec] at h
      | some p =>
        obtain ⟨m, rest⟩ := p
        simp only [popMin, hrec] at h
        split at h <;> simp at h
    · intro h; cases h

theorem popMin_le {α : Type} [LinearOrder α] {l : List α} {m : α} {r : List α}
    (h : popMin l = some (m, r)) : ∀ x ∈ l, m ≤ x := by
  induction l generalizing m r with
  | nil => simp [popMin] at h
  | cons e es ih =>
    cases hrec : popMin es with
    | none =>
      have hes : es = [] := popMin_eq_none_iff.mp hrec
      subst hes
      simp only [popMin] at h
      cases h
      intro x hx
      rcases List.mem_singleton.mp hx with rfl
      exact le_refl _
    | some p =>
      obtain ⟨m', rest'⟩ := p
      simp only [popMin, hrec] at h
      by_cases hle : e ≤ m'
      · rw [if_pos hle] at h
        cases h
        intro x hx
        rcases List.mem_cons.mp hx with rfl | hx'
        · exact le_refl _
        · exact le_trans hle (ih hrec _ hx')
      · rw [if_neg hle] at h
        cases h
        intro x hx
        rcases List.mem_cons.mp hx with rfl | hx'
        · exact le_of_not_le hle
        · exact ih hrec _ hx'

theorem popMin_perm {α : Type} [LinearOrder α] {l : List α} {m : α} {r : List α}
    (h : popMin l = some (m, r)) : l.Perm (m :: r) := by
  induction l generalizing m r with
  | nil => simp [popMin] at h
  | cons e es ih =>
    cases hrec : popMin es with
    | none =>
      have hes : es = [] := popMin_eq_none_iff.mp hrec
      subst hes
      simp only [popMin] at h
      cases h
      exact List.Perm.refl _
    | some p =>
      obtain ⟨m', rest'⟩ := p
      simp only [popMin, hrec] at h
      by_cases hle : e ≤ m'
      · rw [if_pos hle] at h
        cases h
        exact List.Perm.refl _
      · rw [if_neg hle] at h
        cases h
        exact ((ih hrec).cons e).trans (List.Perm.swap _ _ _)

theorem popMin_mem {α : Type} [LinearOrder α] {l : List α} {m : α} {r : List α}
    (h : popMin l = some (m, r)) : m ∈ l :=
  (popMin_perm h).symm.subset (List.mem_cons_self _ _)

/- ### The three search algorithms -/

/-- The `visited`-dictionary update `visited[neighbor] = new_cost`. -/
def updVisited (V : Word → Option ℕ) (neighbor : Word) (new_cost : ℕ) :
    Word → Option ℕ :=
  fun w => if w = neighbor then some new_cost else V w

/-- The push guard shared by A* and uniform-cost search:
`neighbor not in visited or new_cost < visited[neighbor]`. -/
def shouldPush (V : Word → Option ℕ) (new_cost : ℕ) (neighbor : Word) : Bool :=
  match V neighbor with
  | none => true
  | some v => decide (new_cost < v)

/-- Search state of `uniform_cost_search`: the heap and the `visited` dict. -/
structure UState where
  frontier : List UEntry
  visited : Word → Option ℕ

/-- Processing one neighbour inside the `uniform_cost_search` expansion loop. -/
def pushU (cost : ℕ) (path : List Word) (st : UState) (neighbor : Word) : UState :=
  if shouldPush st.visited (cost + 1) neighbor then
    ⟨st.frontier ++ [⟨cost + 1, neighbor, path ++ [neighbor]⟩],
     updVisited st.visited neighbor (cost + 1)⟩
  else st

/-- Expanding a popped entry in `uniform_cost_search`: iterate over the
neighbours of the popped word. -/
def expandU (nbrs : Word → List Word) (e : UEntry) (rest : List UEntry)
    (V : Word → Option ℕ) : UState :=
  (nbrs e.word).foldl (pushU e.cost e.path) ⟨rest, V⟩

/-- The `while frontier:` loop of `uniform_cost_search`, with explicit fuel
(the fuel is large enough that it never runs out; see `ucsLoop` lemmas). -/
def ucsLoop (nbrs : Word → List Word) (target : Word) :
    ℕ → UState → Option (List Word)
  | 0, _ => none
  | fuel + 1, st =>
    match popMin st.frontier with
    | none => none
    | some (e, rest) =>
      if e.word = target then some e.path
      else ucsLoop nbrs target fuel (expandU nbrs e rest st.visited)

/-- Fuel bound used by the search loops; strictly larger than the loop
potential `2·Σ visited-weights + |frontier|` ever gets. -/
def searchFuel (ws : List Word) : ℕ :=
  2 * (ws.dedup.length + 1) * (ws.dedup.length + 1) + 2

/-- `uniform_cost_search(start, target)`. -/
def uniform_cost_search (ws banned : List Word) (start target : Word) :
    Option (List Word) :=
  if is_valid_word ws banned start = true ∧ is_valid_word ws banned target = true then
    ucsLoop (get_neighbors ws banned) target (searchFuel ws)
      ⟨[⟨0, start, [start]⟩], fun w => if w = start then some 0 else none⟩
  else none

/-- Search state of `a_star_search`. -/
structure AState where
  frontier : List AEntry
  visited : Word → Option ℕ

/-- Processing one neighbour inside the `a_star_search` expansion loop;
the pushed priority is `new_cost + heuristic(neighbor, target)`. -/
def pushA (target : Word) (cost : ℕ) (path : List Word) (st : AState)
    (neighbor : Word) : AState :=
  if shouldPush st.visited (cost + 1) neighbor then
    ⟨st.frontier ++
        [⟨(cost + 1 : ℕ) + heuristic neighbor target, cost + 1, neighbor,
          path ++ [neighbor]⟩],
     updVisited st.visited neighbor (cost + 1)⟩
  else st

/-- Expanding a popped entry in `a_star_search`. -/
def expandA (nbrs : Word → List Word) (target : Word) (e : AEntry)
    (rest : List AEntry) (V : Word → Option ℕ) : AState :=
  (nbrs e.word).foldl (pushA target e.cost e.path) ⟨rest, V⟩

/-- The `while frontier:` loop of `a_star_search`. -/
def aStarLoop (nbrs : Word → List Word) (target : Word) :
    ℕ → AState → Option (List Word)
  | 0, _ => none
  | fuel + 1, st =>
    match popMin st.frontier with
    | none => none
    | some (e, rest) =>
      if e.word = target then some e.path
      else aStarLoop nbrs target fuel (expandA nbrs target e rest st.visited)

/-- `a_star_search(start, target)`. -/
def a_star_search (ws banned : List Word) (start target : Word) :
    Option (List Word) :=
  if is_valid_word ws banned start = true ∧ is_valid_word ws banned target = true then
    aStarLoop (get_neighbors ws banned) target (searchFuel ws)
      ⟨[⟨heuristic start target, 0, start, [start]⟩],
       fun w => if w = start then some 0 else none⟩
  else none

/-- Search state of `greedy_best_first_search`: the heap and the `visited` set. -/
structure GState where
  frontier : List GEntry
  visited : Word → Bool

/-- Processing one neighbour inside the greedy expansion loop: push only
never-seen neighbours, with priority `heuristic(neighbor, target)`. -/
def pushG (target : Word) (path : List Word) (st : GState) (neighbor : Word) :
    GState :=
  if st.visited neighbor then st
  else
    ⟨st.frontier ++ [⟨heuristic neighbor target, neighbor, path ++ [neighbor]⟩],
     fun w => if w = neighbor then true else st.visited w⟩

/-- Expanding a popped entry in `greedy_best_first_search`. -/
def expandG (nbrs : Word → List Word) (target : Word) (e : GEntry)
    (rest : List GEntry) (V : Word → Bool) : GState :=
  (nbrs e.word).foldl (pushG target e.path) ⟨rest, V⟩

/-- The `while frontier:` loop of `greedy_best_first_search`. -/
def greedyLoop (nbrs : Word → List Word) (target : Word) :
    ℕ → GState → Option (List Word)
  | 0, _ => none
  | fuel + 1, st =>
    match popMin st.frontier with
    | none => none
    | some (e, rest) =>
      if e.word = target then some e.path
      else greedyLoop nbrs target fuel (expandG nbrs target e rest st.visited)

/-- `greedy_best_first_search(start, target)`. -/
def greedy_best_first_search (ws banned : List Word) (start target : Word) :
    Option (List Word) :=
  if is_valid_word ws banned start = true ∧ is_valid_word ws banned target = true then
    greedyLoop (get_neighbors ws banned) target (searchFuel ws)
      ⟨[⟨heuristic start target, start, [start]⟩],
       fun w => if w = start then true else false⟩
  else none

/- ### Word ladders (paths in the one-letter-substitution graph) -/

/-- A path from `s` to `t` in the graph whose edges are given by the
neighbour enumeration `nbrs` (instantiated with `get_neighbors` below):
nonempty, starting at `s`, ending at `t`, each word a neighbour of its
predecessor. -/
def LadderFrom (nbrs : Word → List Word) (s t : Word) (p : List Word) : Prop :=
  p.head? = some s ∧ p.getLast? = some t ∧
    List.Chain' (fun a b => b ∈ nbrs a) p

/-- There is a ladder from `s` to `t` with exactly `n` edges. -/
def HasLadderN (nbrs : Word → List Word) (s t : Word) (n : ℕ) : Prop :=
  ∃ p, LadderFrom nbrs s t p ∧ p.length = n + 1

theorem LadderFrom.ne_nil {nbrs : Word → List Word} {s t : Word} {p : List Word}
    (h : LadderFrom nbrs s t p) : p ≠ [] := by
  intro hp
  rw [hp] at h
  exact Option.noConfusion h.1

theorem ladderFrom_singleton (nbrs : Word → List Word) (s : Word) :
    LadderFrom nbrs s s [s] :=
  ⟨rfl, rfl, List.chain'_singleton s⟩

/-- Extending a ladder by one neighbour of its last word. -/
theorem LadderFrom.snoc {nbrs : Word → List Word} {s w y : Word} {p : List Word}
    (h : LadderFrom nbrs s w p) (hy : y ∈ nbrs w) :
    LadderFrom nbrs s y (p ++ [y]) := by
  have hne := h.ne_nil
  obtain ⟨hh, hl, hc⟩ := h
  refine ⟨?_, ?_, ?_⟩
  · rw [List.head?_append_of_ne_nil _ hne]
    · exact hh
  · rw [List.getLast?_append_of_ne_nil _ (by simp)]
    rfl
  · rw [List.chain'_append]
    refine ⟨hc, List.chain'_singleton y, ?_⟩
    intro x hx z hz
    rw [hl] at hx
    cases hx
    rcases hz with hz
    cases hz
    exact hy

/-- A 0-edge ladder forces its endpoints to coincide. -/
theorem HasLadderN.eq_of_zero {nbrs : Word → List Word} {s t : Word}
    (h : HasLadderN nbrs s t 0) : s = t := by
  obtain ⟨p, ⟨hh, hl, -⟩, hlen⟩ := h
  match p, hlen with
  | [x], _ =>
    cases hh
    cases hl
    rfl

/-- A ladder with at least one edge starts with a neighbour step. -/
theorem HasLadderN.cons_decomp {nbrs : Word → List Word} {s t : Word} {k : ℕ}
    (h : HasLadderN nbrs s t (k + 1)) :
    ∃ z ∈ nbrs s, HasLadderN nbrs z t k := by
  obtain ⟨p, ⟨hh, hl, hc⟩, hlen⟩ := h
  match p, hlen with
  | x :: z :: rest, hlen =>
    cases hh
    rw [List.chain'_cons] at hc
    refine ⟨z, hc.1, z :: rest, ⟨rfl, ?_, hc.2⟩, by simpa using hlen⟩
    rw [List.getLast?_cons_cons] at hl
    exact hl

/-- Concatenating a `v`-edge ladder `s → y` with a `k`-edge ladder `y → t`. -/
theorem HasLadderN.trans {nbrs : Word → List Word} {s y t : Word} {v k : ℕ}
    (h1 : HasLadderN nbrs s y v) (h2 : HasLadderN nbrs y t k) :
    HasLadderN nbrs s t (v + k) := by
  induction k generalizing y v with
  | zero =>
    have := h2.eq_of_zero
    subst this
    exact h1
  | succ k ih =>
    obtain ⟨z, hz, h2'⟩ := h2.cons_decomp
    obtain ⟨p, hp, hlen⟩ := h1
    have h1' : HasLadderN nbrs s z (v + 1) :=
      ⟨p ++ [z], hp.snoc hz, by simp [hlen]⟩
    have h3 := ih h1' h2'
    have harith : v + (k + 1) = v + 1 + k := by omega
    rw [harith]
    exact h3

/-- All words of a ladder lie in any `nbrs`-closed universe containing its
start. -/
theorem LadderFrom.mem_closed {nbrs : Word → List Word} {U : List Word}
    (hU : ∀ w ∈ U, ∀ y ∈ nbrs w, y ∈ U) {s t : Word} {p : List Word}
    (h : LadderFrom nbrs s t p) (hs : s ∈ U) : ∀ x ∈ p, x ∈ U := by
  obtain ⟨hh, -, hc⟩ := h
  induction p generalizing s with
  | nil => intro x hx; cases hx
  | cons a q ih =>
    cases hh
    intro x hx
    rcases List.mem_cons.mp hx with rfl | hx'
    · exact hs
    · cases q with
      | nil => cases hx'
      | cons b q' =>
        rw [List.chain'_cons] at hc
        have hbU : b ∈ U := hU _ hs _ hc.1
        exact @ih b hbU rfl hc.2 x hx'

/- ### Effect of one expansion on the uniform-cost search state -/

theorem updVisited_self (V : Word → Option ℕ) (y : Word) (n : ℕ) :
    updVisited V y n y = some n := by
  simp [updVisited]

theorem updVisited_ne (V : Word → Option ℕ) {y w : Word} (n : ℕ) (h : w ≠ y) :
    updVisited V y n w = V w := by
  simp [updVisited, h]

theorem shouldPush_congr {V V' : Word → Option ℕ} {n : ℕ} {w : Word}
    (h : V' w = V w) : shouldPush V' n w = shouldPush V n w := by
  unfold shouldPush
  rw [h]

theorem shouldPush_none {V : Word → Option ℕ} {n : ℕ} {w : Word}
    (h : V w = none) : shouldPush V n w = true := by
  unfold shouldPush
  rw [h]

theorem shouldPush_some {V : Word → Option ℕ} {n : ℕ} {w : Word} {v : ℕ}
    (h : V w = some v) : shouldPush V n w = decide (n < v) := by
  unfold shouldPush
  rw [h]

/-- The `visited` dictionary after the expansion loop of
`uniform_cost_search`: neighbours passing the push guard are (re)bound to
`cost + 1`; everything else is unchanged. -/
theorem foldl_pushU_visited (c : ℕ) (p : List Word) :
    ∀ (ns : List Word) (F : List UEntry) (V : Word → Option ℕ), ns.Nodup →
      ∀ w, (ns.foldl (pushU c p) ⟨F, V⟩).visited w =
        if w ∈ ns ∧ shouldPush V (c + 1) w = true then some (c + 1) else V w := by
  intro ns
  induction ns with
  | nil =>
    intro F V _ w
    simp [List.foldl]
  | cons a tl ih =>
    intro F V hnd w
    have hatl : a ∉ tl := (List.nodup_cons.mp hnd).1
    have htl : tl.Nodup := (List.nodup_cons.mp hnd).2
    rw [List.foldl_cons]
    by_cases hpa : shouldPush V (c + 1) a = true
    · have hstep : pushU c p ⟨F, V⟩ a =
          ⟨F ++ [⟨c + 1, a, p ++ [a]⟩], updVisited V a (c + 1)⟩ := by
        unfold pushU
        rw [if_pos hpa]
      rw [hstep, ih _ _ htl]
      by_cases hwa : w = a
      · subst hwa
        rw [if_neg (fun hcon => hatl hcon.1), updVisited_self,
          if_pos ⟨List.mem_cons_self _ _, hpa⟩]
      · rw [updVisited_ne _ _ hwa,
          shouldPush_congr (updVisited_ne V _ hwa)]
        by_cases hwtl : w ∈ tl ∧ shouldPush V (c + 1) w = true
        · rw [if_pos hwtl, if_pos ⟨List.mem_cons.mpr (Or.inr hwtl.1), hwtl.2⟩]
        · rw [if_neg hwtl, if_neg]
          intro hcon
          exact hwtl ⟨(List.mem_cons.mp hcon.1).resolve_left hwa, hcon.2⟩
    · have hstep : pushU c p ⟨F, V⟩ a = ⟨F, V⟩ := by
        unfold pushU
        rw [if_neg hpa]
      rw [hstep, ih _ _ htl]
      by_cases hwa : w = a
      · subst hwa
        rw [if_neg (fun hcon => hatl hcon.1), if_neg (fun hcon => hpa hcon.2)]
      · by_cases hwtl : w ∈ tl ∧ shouldPush V (c + 1) w = true
        · rw [if_pos hwtl, if_pos ⟨List.mem_cons.mpr (Or.inr hwtl.1), hwtl.2⟩]
        · rw [if_neg hwtl, if_neg]
          intro hcon
          exact hwtl ⟨(List.mem_cons.mp hcon.1).resolve_left hwa, hcon.2⟩

/-- The frontier after the expansion loop of `uniform_cost_search`: the
surviving heap entries followed by one new entry for every neighbour that
passes the push guard, in enumeration order. -/
theorem foldl_pushU_frontier (c : ℕ) (p : List Word) :
    ∀ (ns : List Word) (F : List UEntry) (V : Word → Option ℕ), ns.Nodup →
      (ns.foldl (pushU c p) ⟨F, V⟩).frontier =
        F ++ (ns.filter fun y => shouldPush V (c + 1) y).map
          (fun y => ⟨c + 1, y, p ++ [y]⟩) := by
  intro ns
  induction ns with
  | nil =>
    intro F V _
    simp [List.foldl]
  | cons a tl ih =>
    intro F V hnd
    have hatl : a ∉ tl := (List.nodup_cons.mp hnd).1
    have htl : tl.Nodup := (List.nodup_cons.mp hnd).2
    rw [List.foldl_cons]
    have hfilter : tl.filter (fun y => shouldPush (updVisited V a (c + 1)) (c + 1) y)
        = tl.filter (fun y => shouldPush V (c + 1) y) := by
      apply List.filter_congr
      intro y hy
      exact shouldPush_congr (updVisited_ne V _ (fun h => hatl (h ▸ hy)))
    by_cases hpa : shouldPush V (c + 1) a = true
    · have hstep : pushU c p ⟨F, V⟩ a =
          ⟨F ++ [⟨c + 1, a, p ++ [a]⟩], updVisited V a (c + 1)⟩ := by
        unfold pushU
        rw [if_pos hpa]
      rw [hstep, ih _ _ htl, hfilter, List.filter_cons_of_pos hpa,
        List.map_cons, List.append_assoc]
      rfl
    · have hstep : pushU c p ⟨F, V⟩ a = ⟨F, V⟩ := by
        unfold pushU
        rw [if_neg hpa]
      rw [hstep, ih _ _ htl, List.filter_cons_of_neg (by simpa using hpa)]

/-- Visited costs never increase across an expansion. -/
theorem foldl_pushU_decreasing (c : ℕ) (p : List Word) (ns : List Word)
    (F : List UEntry) (V : Word → Option ℕ) (hnd : ns.Nodup) :
    ∀ w v, V w = some v →
      ∃ v', (ns.foldl (pushU c p) ⟨F, V⟩).visited w = some v' ∧ v' ≤ v := by
  intro w v hw
  rw [foldl_pushU_visited c p ns F V hnd w]
  by_cases hcond : w ∈ ns ∧ shouldPush V (c + 1) w = true
  · rw [if_pos hcond]
    refine ⟨c + 1, rfl, ?_⟩
    have := hcond.2
    rw [shouldPush_some hw] at this
    exact le_of_lt (of_decide_eq_true this)
  · rw [if_neg hcond]
    exact ⟨v, hw, le_refl v⟩

/- ### Termination potential of the uniform-cost search loop -/

/-- Weight of one visited-dictionary cell: an unvisited word weighs `B + 1`,
a visited one weighs its recorded cost. -/
def potV (B : ℕ) : Option ℕ → ℕ
  | none => B + 1
  | some v => v

/-- Total visited weight over a universe `U` of words. -/
def potSum (U : List Word) (B : ℕ) (V : Word → Option ℕ) : ℕ :=
  (U.map fun w => potV B (V w)).sum

/-- Loop potential: every iteration of the `while` loop strictly decreases it. -/
def phiU (U : List Word) (st : UState) : ℕ :=
  2 * potSum U U.length st.visited + st.frontier.length

theorem potSum_update (U : List Word) (B : ℕ) (V : Word → Option ℕ) {y : Word}
    (hnd : U.Nodup) (hy : y ∈ U) (n : ℕ) :
    potSum U B (updVisited V y n) + potV B (V y) = potSum U B V + n := by
  induction U with
  | nil => cases hy
  | cons a tl ih =>
    have hatl : a ∉ tl := (List.nodup_cons.mp hnd).1
    have htl : tl.Nodup := (List.nodup_cons.mp hnd).2
    simp only [potSum, List.map_cons, List.sum_cons]
    rcases List.mem_cons.mp hy with rfl | hy'
    · have hmap : tl.map (fun w => potV B (updVisited V y n w)) =
          tl.map (fun w => potV B (V w)) := by
        apply List.map_congr_left
        intro w hw
        have hne : w ≠ y := by
          intro h
          subst h
          exact hatl hw
        rw [updVisited_ne _ _ hne]
      rw [updVisited_self, hmap]
      simp [potV]
      omega
    · have ha_ne : a ≠ y := fun h => hatl (h ▸ hy')
      rw [updVisited_ne _ _ ha_ne]
      have := ih htl hy'
      simp only [potSum] at this
      omega

theorem foldl_pushU_phi (U : List Word) (c : ℕ) (p : List Word)
    (hUnd : U.Nodup) (hc : c + 1 ≤ U.length) :
    ∀ (ns : List Word) (F : List UEntry) (V : Word → Option ℕ),
      (∀ y ∈ ns, y ∈ U) →
      phiU U (ns.foldl (pushU c p) ⟨F, V⟩) ≤ phiU U ⟨F, V⟩ := by
  intro ns
  induction ns with
  | nil =>
    intro F V _
    simp [List.foldl]
  | cons a tl ih =>
    intro F V hns
    have haU : a ∈ U := hns a (List.mem_cons_self _ _)
    rw [List.foldl_cons]
    by_cases hpa : shouldPush V (c + 1) a = true
    · have hstep : pushU c p ⟨F, V⟩ a =
          ⟨F ++ [⟨c + 1, a, p ++ [a]⟩], updVisited V a (c + 1)⟩ := by
        unfold pushU
        rw [if_pos hpa]
      rw [hstep]
      refine le_trans (ih _ _ (fun y hy => hns y (List.mem_cons_of_mem _ hy))) ?_
      have hupd := potSum_update U U.length V hUnd haU (c + 1)
      have hdrop : c + 1 + 1 ≤ potV U.length (V a) := by
        unfold shouldPush at hpa
        cases hVa : V a with
        | none => simp [potV]; omega
        | some v =>
          rw [hVa] at hpa
          have := of_decide_eq_true hpa
          simp [potV]
          omega
      simp only [phiU, List.length_append, List.length_singleton]
      omega
    · have hstep : pushU c p ⟨F, V⟩ a = ⟨F, V⟩ := by
        unfold pushU
        rw [if_neg hpa]
      rw [hstep]
      exact ih _ _ (fun y hy => hns y (List.mem_cons_of_mem _ hy))

/- ### The uniform-cost search loop invariant -/

theorem UEntry.cost_le_of_le {e1 e2 : UEntry} (h : e1 ≤ e2) : e1.cost ≤ e2.cost := by
  have hk : UEntry.key e1 ≤ UEntry.key e2 := h
  rcases (Prod.Lex.le_iff _ _).mp hk with hlt | ⟨heq, -⟩
  · exact le_of_lt hlt
  · exact le_of_eq heq

/-- Frontier membership after an expansion. -/
theorem mem_expandU {nbrs : Word → List Word} (hnd : ∀ w, (nbrs w).Nodup)
    {e : UEntry} {rest : List UEntry} {V : Word → Option ℕ} {x : UEntry} :
    x ∈ (expandU nbrs e rest V).frontier ↔
      x ∈ rest ∨ ∃ y ∈ nbrs e.word, shouldPush V (e.cost + 1) y = true ∧
        x = ⟨e.cost + 1, y, e.path ++ [y]⟩ := by
  unfold expandU
  rw [foldl_pushU_frontier _ _ _ _ _ (hnd _), List.mem_append]
  constructor
  · rintro (hx | hx)
    · exact Or.inl hx
    · obtain ⟨y, hy, rfl⟩ := List.mem_map.mp hx
      obtain ⟨hyn, hys⟩ := List.mem_filter.mp hy
      exact Or.inr ⟨y, hyn, hys, rfl⟩
  · rintro (hx | ⟨y, hyn, hys, rfl⟩)
    · exact Or.inl hx
    · exact Or.inr (List.mem_map.mpr ⟨y, List.mem_filter.mpr ⟨hyn, hys⟩, rfl⟩)

/-- Visited dictionary after an expansion. -/
theorem expandU_visited {nbrs : Word → List Word} (hnd : ∀ w, (nbrs w).Nodup)
    {e : UEntry} {rest : List UEntry} {V : Word → Option ℕ} (w : Word) :
    (expandU nbrs e rest V).visited w =
      if w ∈ nbrs e.word ∧ shouldPush V (e.cost + 1) w = true
      then some (e.cost + 1) else V w := by
  unfold expandU
  exact foldl_pushU_visited _ _ _ _ _ (hnd _) w

theorem expandU_decreasing {nbrs : Word → List Word} (hnd : ∀ w, (nbrs w).Nodup)
    {e : UEntry} {rest : List UEntry} {V : Word → Option ℕ} {w : Word} {v : ℕ}
    (hw : V w = some v) :
    ∃ v', (expandU nbrs e rest V).visited w = some v' ∧ v' ≤ v := by
  unfold expandU
  obtain ⟨v', h1, h2⟩ := foldl_pushU_decreasing e.cost e.path _ rest V (hnd _) w v hw
  exact ⟨v', h1, h2⟩

/-- The invariant maintained by the `uniform_cost_search` loop, over a
`nbrs`-closed universe `U`, for a search from `s` towards `t`. -/
structure UInv (nbrs : Word → List Word) (U : List Word) (s t : Word)
    (st : UState) : Prop where
  good : ∀ e ∈ st.frontier,
    LadderFrom nbrs s e.word e.path ∧ e.path.length = e.cost + 1
  inU : ∀ e ∈ st.frontier, ∀ w ∈ e.path, w ∈ U
  nodupPath : ∀ e ∈ st.frontier, e.path.Nodup
  pbound : ∀ e ∈ st.frontier, ∀ i, ∀ h : i < e.path.length,
    ∃ v, st.visited (e.path.get ⟨i, h⟩) = some v ∧ v ≤ i
  vsound : ∀ w v, st.visited w = some v → HasLadderN nbrs s w v
  live : ∀ w v, st.visited w = some v →
    (∃ e ∈ st.frontier, e.cost = v ∧ e.word = w) ∨
    (w ≠ t ∧ ∀ z ∈ nbrs w, ∃ vz, st.visited z = some vz ∧ vz ≤ v + 1)

theorem UInv.word_mem_U {nbrs : Word → List Word} {U : List Word} {s t : Word}
    {st : UState} (inv : UInv nbrs U s t st) {e : UEntry}
    (he : e ∈ st.frontier) : e.word ∈ U := by
  have hlast := (inv.good e he).1.2.1
  exact inv.inU e he _ (List.mem_of_getLast?_eq_some hlast)

/-- Preservation of the loop invariant by one expansion. -/
theorem UInv_expand {nbrs : Word → List Word} {U : List Word} {s t : Word}
    (hU : ∀ w ∈ U, ∀ y ∈ nbrs w, y ∈ U) (hnd : ∀ w, (nbrs w).Nodup)
    {st : UState} (inv : UInv nbrs U s t st) {e : UEntry} {rest : List UEntry}
    (hpop : popMin st.frontier = some (e, rest)) (hnt : e.word ≠ t) :
    UInv nbrs U s t (expandU nbrs e rest st.visited) := by
  set V := st.visited with hV
  have hperm := popMin_perm hpop
  have he_mem : e ∈ st.frontier := popMin_mem hpop
  have hrest : ∀ x ∈ rest, x ∈ st.frontier := fun x hx =>
    hperm.symm.subset (List.mem_cons_of_mem _ hx)
  have hegood := inv.good e he_mem
  have heU : e.word ∈ U := inv.word_mem_U he_mem
  -- facts about each pushed neighbour
  have hpush_not_mem : ∀ y ∈ nbrs e.word, shouldPush V (e.cost + 1) y = true →
      y ∉ e.path := by
    intro y _ hys hyp
    obtain ⟨i, hget⟩ := List.mem_iff_get.mp hyp
    obtain ⟨v, hv, hvle⟩ := inv.pbound e he_mem i.1 i.2
    have hv2 : V y = some v := by
      rw [← hget]
      exact hv
    rw [shouldPush_some hv2] at hys
    have hlt := of_decide_eq_true hys
    have hi2 : i.1 < e.path.length := i.2
    have hplen := hegood.2
    omega
  have hpush_ladder : ∀ y ∈ nbrs e.word,
      LadderFrom nbrs s y (e.path ++ [y]) := fun y hy => hegood.1.snoc hy
  refine ⟨?_, ?_, ?_, ?_, ?_, ?_⟩
  · -- good
    intro x hx
    rcases (mem_expandU hnd).mp hx with hx' | ⟨y, hyn, hys, rfl⟩
    · exact inv.good x (hrest x hx')
    · exact ⟨hpush_ladder y hyn, by simp [hegood.2]⟩
  · -- inU
    intro x hx
    rcases (mem_expandU hnd).mp hx with hx' | ⟨y, hyn, hys, rfl⟩
    · exact inv.inU x (hrest x hx')
    · intro w hw
      rcases List.mem_append.mp hw with hw' | hw'
      · exact inv.inU e he_mem w hw'
      · rcases List.mem_singleton.mp hw' with rfl
        exact hU _ heU _ hyn
  · -- nodupPath
    intro x hx
    rcases (mem_expandU hnd).mp hx with hx' | ⟨y, hyn, hys, rfl⟩
    · exact inv.nodupPath x (hrest x hx')
    · simp only [List.nodup_append, List.nodup_singleton]
      exact ⟨inv.nodupPath e he_mem, trivial,
        by simpa [List.disjoint_singleton] using hpush_not_mem y hyn hys⟩
  · -- pbound
    intro x hx i hilt
    rcases (mem_expandU hnd).mp hx with hx' | ⟨y, hyn, hys, rfl⟩
    · obtain ⟨v, hv, hvle⟩ := inv.pbound x (hrest x hx') i hilt
      obtain ⟨v', hv', hv'le⟩ := expandU_decreasing hnd hv
      exact ⟨v', hv', le_trans hv'le hvle⟩
    · have hilt2 : i < e.path.length + 1 := by simpa using hilt
      by_cases hip : i < e.path.length
      · have hget : (e.path ++ [y]).get ⟨i, hilt⟩ = e.path.get ⟨i, hip⟩ := by
          rw [List.get_eq_getElem, List.get_eq_getElem]
          exact List.getElem_append_left hip
        rw [hget]
        obtain ⟨v, hv, hvle⟩ := inv.pbound e he_mem i hip
        obtain ⟨v', hv', hv'le⟩ := expandU_decreasing hnd hv
        exact ⟨v', hv', le_trans hv'le hvle⟩
      · have hieq : i = e.path.length := by omega
        clear hilt2
        have hget : (e.path ++ [y]).get ⟨i, hilt⟩ = y := by
          rw [List.get_eq_getElem]
          rw [List.getElem_append_right (by simpa using le_of_eq hieq.symm)]
          simp [hieq]
        rw [hget]
        refine ⟨e.cost + 1, ?_, ?_⟩
        · rw [expandU_visited hnd, if_pos ⟨hyn, hys⟩]
        · omega
  · -- vsound
    intro w v hw
    rw [expandU_visited hnd] at hw
    by_cases hcond : w ∈ nbrs e.word ∧ shouldPush V (e.cost + 1) w = true
    · rw [if_pos hcond] at hw
      cases hw
      exact ⟨e.path ++ [w], hpush_ladder w hcond.1, by simp [hegood.2]⟩
    · rw [if_neg hcond] at hw
      exact inv.vsound w v hw
  · -- live
    intro w v hw
    rw [expandU_visited hnd] at hw
    by_cases hcond : w ∈ nbrs e.word ∧ shouldPush V (e.cost + 1) w = true
    · rw [if_pos hcond] at hw
      cases hw
      refine Or.inl ⟨⟨e.cost + 1, w, e.path ++ [w]⟩, ?_, rfl, rfl⟩
      exact (mem_expandU hnd).mpr (Or.inr ⟨w, hcond.1, hcond.2, rfl⟩)
    · rw [if_neg hcond] at hw
      rcases inv.live w v hw with ⟨x, hxf, hxc, hxw⟩ | ⟨hwt, hbound⟩
      · rcases List.mem_cons.mp (hperm.subset hxf) with hx | hx
        · -- x = e : the popped entry was the live entry for w
          have hec : e.cost = v := by rw [← hx]; exact hxc
          have hew : e.word = w := by rw [← hx]; exact hxw
          refine Or.inr ⟨fun hwt => hnt (by rw [hew, hwt]), ?_⟩
          intro z hz
          rw [← hew] at hz
          by_cases hzc : z ∈ nbrs e.word ∧ shouldPush V (e.cost + 1) z = true
          · refine ⟨e.cost + 1, ?_, ?_⟩
            · rw [expandU_visited hnd, if_pos hzc]
            · omega
          · have hzs : ¬ shouldPush V (e.cost + 1) z = true := fun hs => hzc ⟨hz, hs⟩
            cases hVz : V z with
            | none => exact absurd (shouldPush_none hVz) hzs
            | some vz =>
              refine ⟨vz, ?_, ?_⟩
              · rw [expandU_visited hnd, if_neg hzc, hVz]
              · rw [shouldPush_some hVz] at hzs
                have hnlt : ¬ (e.cost + 1 < vz) := fun hlt => hzs (decide_eq_true hlt)
                omega
        · -- x survives in rest
          exact Or.inl ⟨x, (mem_expandU hnd).mpr (Or.inl hx), hxc, hxw⟩
      · refine Or.inr ⟨hwt, ?_⟩
        intro z hz
        obtain ⟨vz, hvz, hvzle⟩ := hbound z hz
        obtain ⟨vz', hvz', hvz'le⟩ := expandU_decreasing hnd hvz
        exact ⟨vz', hvz', le_trans hvz'le hvzle⟩

/- ### Optimality of the uniform-cost search loop -/

/-- `n` is the breadth-first shortest-path edge count from `s` to `t`. -/
def MinLadderN (nbrs : Word → List Word) (s t : Word) (n : ℕ) : Prop :=
  HasLadderN nbrs s t n ∧ ∀ m, HasLadderN nbrs s t m → n ≤ m

/-- Completeness: some frontier entry still lies on a shortest path to `t`. -/
def UComp (nbrs : Word → List Word) (t : Word) (n : ℕ) (st : UState) : Prop :=
  ∃ e ∈ st.frontier, ∃ k, HasLadderN nbrs e.word t k ∧ e.cost + k = n

/-- From any visited word on a shortest path one can chase along the path to a
frontier entry still on a shortest path. -/
theorem chase {nbrs : Word → List Word} {U : List Word} {s t : Word}
    {st : UState} (inv : UInv nbrs U s t st) {n : ℕ}
    (hmin : MinLadderN nbrs s t n) :
    ∀ k y v, st.visited y = some v → HasLadderN nbrs y t k → v + k = n →
      UComp nbrs t n st := by
  intro k
  induction k with
  | zero =>
    intro y v hv hlad hsum
    have hyt : y = t := hlad.eq_of_zero
    rcases inv.live y v hv with ⟨e, he, hc, hw⟩ | ⟨hne, -⟩
    · refine ⟨e, he, 0, ?_, by omega⟩
      rw [hw, hyt]
      exact ⟨[t], ladderFrom_singleton _ _, rfl⟩
    · exact absurd hyt hne
  | succ k ih =>
    intro y v hv hlad hsum
    rcases inv.live y v hv with ⟨e, he, hc, hw⟩ | ⟨hne, hbound⟩
    · refine ⟨e, he, k + 1, ?_, by omega⟩
      rw [hw]
      exact hlad
    · obtain ⟨z, hz, hlad'⟩ := hlad.cons_decomp
      obtain ⟨vz, hvz, hvzle⟩ := hbound z hz
      have hsz : HasLadderN nbrs s z vz := inv.vsound z vz hvz
      have hmle : n ≤ vz + k := hmin.2 _ (hsz.trans hlad')
      exact ih z vz hvz hlad' (by omega)

/-- Preservation of the completeness witness by one expansion. -/
theorem UComp_expand {nbrs : Word → List Word} {U : List Word} {s t : Word}
    (hnd : ∀ w, (nbrs w).Nodup) {st : UState} (inv : UInv nbrs U s t st)
    {e : UEntry} {rest : List UEntry}
    (hpop : popMin st.frontier = some (e, rest)) (hnt : e.word ≠ t)
    (inv' : UInv nbrs U s t (expandU nbrs e rest st.visited))
    {n : ℕ} (hmin : MinLadderN nbrs s t n) (hcomp : UComp nbrs t n st) :
    UComp nbrs t n (expandU nbrs e rest st.visited) := by
  obtain ⟨e₀, he₀, k₀, hlad₀, hsum₀⟩ := hcomp
  rcases List.mem_cons.mp ((popMin_perm hpop).subset he₀) with hx | hx
  · -- the popped entry was the completeness witness
    have hlad₁ : HasLadderN nbrs e.word t k₀ := by rw [← hx]; exact hlad₀
    have hsum₁ : e.cost + k₀ = n := by rw [← hx]; exact hsum₀
    cases k₀ with
    | zero => exact absurd hlad₁.eq_of_zero hnt
    | succ k =>
      obtain ⟨z, hz, hladz⟩ := hlad₁.cons_decomp
      by_cases hzp : shouldPush st.visited (e.cost + 1) z = true
      · refine ⟨⟨e.cost + 1, z, e.path ++ [z]⟩,
          (mem_expandU hnd).mpr (Or.inr ⟨z, hz, hzp, rfl⟩), k, hladz, ?_⟩
        show e.cost + 1 + k = n
        omega
      · cases hVz : st.visited z with
        | none => exact absurd (shouldPush_none hVz) hzp
        | some vz =>
          have hvzle : vz ≤ e.cost + 1 := by
            rw [shouldPush_some hVz] at hzp
            have : ¬ (e.cost + 1 < vz) := fun hlt => hzp (decide_eq_true hlt)
            omega
          have hsz : HasLadderN nbrs s z vz := inv.vsound z vz hVz
          have hmle : n ≤ vz + k := hmin.2 _ (hsz.trans hladz)
          have hVz' : (expandU nbrs e rest st.visited).visited z = some vz := by
            rw [expandU_visited hnd, if_neg (fun hcon => hzp hcon.2), hVz]
          exact chase inv' hmin k z vz hVz' hladz (by omega)
  · exact ⟨e₀, (mem_expandU hnd).mpr (Or.inl hx), k₀, hlad₀, hsum₀⟩

/-- The uniform-cost search loop returns a shortest ladder whenever the
invariants hold, the completeness witness is in the frontier, and the fuel
exceeds the potential. -/
theorem ucsLoop_finds {nbrs : Word → List Word} {U : List Word} {s t : Word}
    (hU : ∀ w ∈ U, ∀ y ∈ nbrs w, y ∈ U) (hUnd : U.Nodup)
    (hnd : ∀ w, (nbrs w).Nodup) {n : ℕ} (hmin : MinLadderN nbrs s t n) :
    ∀ fuel (st : UState), UInv nbrs U s t st → UComp nbrs t n st →
      phiU U st < fuel →
      ∃ q, ucsLoop nbrs t fuel st = some q ∧ LadderFrom nbrs s t q ∧
        q.length = n + 1 := by
  intro fuel
  induction fuel with
  | zero =>
    intro st _ _ h
    exact absurd h (Nat.not_lt_zero _)
  | succ fuel ih =>
    intro st inv comp hphi
    obtain ⟨e₀, he₀, k₀, hlad₀, hsum₀⟩ := comp
    cases hpop : popMin st.frontier with
    | none =>
      rw [popMin_eq_none_iff] at hpop
      rw [hpop] at he₀
      cases he₀
    | some pr =>
      obtain ⟨e, rest⟩ := pr
      have he_mem := popMin_mem hpop
      by_cases hword : e.word = t
      · have hgood := inv.good e he_mem
        have h1 : n ≤ e.cost := by
          refine hmin.2 _ ⟨e.path, ?_, hgood.2⟩
          rw [← hword]
          exact hgood.1
        have h2 : e.cost ≤ n := by
          have hle := popMin_le hpop e₀ he₀
          have := UEntry.cost_le_of_le hle
          omega
        refine ⟨e.path, ?_, ?_, ?_⟩
        · simp only [ucsLoop, hpop]
          rw [if_pos hword]
        · rw [← hword]
          exact hgood.1
        · have := hgood.2
          omega
      · have inv' := UInv_expand hU hnd inv hpop hword
        have comp' := UComp_expand hnd inv hpop hword inv' hmin
          ⟨e₀, he₀, k₀, hlad₀, hsum₀⟩
        have hegood := inv.good e he_mem
        have hcbound : e.cost + 1 ≤ U.length := by
          have hnodup := inv.nodupPath e he_mem
          have hsub := (List.subperm_of_subset hnodup (inv.inU e he_mem)).length_le
          have := hegood.2
          omega
        have hphi1 : phiU U (expandU nbrs e rest st.visited) ≤
            phiU U ⟨rest, st.visited⟩ := by
          unfold expandU
          exact foldl_pushU_phi U e.cost e.path hUnd hcbound _ rest st.visited
            (fun y hy => hU _ (inv.word_mem_U he_mem) _ hy)
        have hflen : st.frontier.length = rest.length + 1 := by
          have := (popMin_perm hpop).length_eq
          simpa using this
        have hphi' : phiU U (expandU nbrs e rest st.visited) < fuel := by
          have h2 : phiU U ⟨rest, st.visited⟩ + 1 = phiU U st := by
            simp only [phiU]
            omega
          omega
        obtain ⟨q, hq, hlq, hql⟩ := ih (expandU nbrs e rest st.visited) inv' comp' hphi'
        refine ⟨q, ?_, hlq, hql⟩
        simp only [ucsLoop, hpop]
        rw [if_neg hword]
        exact hq

/-- Any path returned by the uniform-cost search loop is a genuine ladder
from `s` to `t`. -/
theorem ucsLoop_sound {nbrs : Word → List Word} {s t : Word}
    (hnd : ∀ w, (nbrs w).Nodup) :
    ∀ fuel (st : UState),
      (∀ e ∈ st.frontier, LadderFrom nbrs s e.word e.path) →
      ∀ q, ucsLoop nbrs t fuel st = some q → LadderFrom nbrs s t q := by
  intro fuel
  induction fuel with
  | zero =>
    intro st _ q h
    simp [ucsLoop] at h
  | succ fuel ih =>
    intro st hgood q hq
    cases hpop : popMin st.frontier with
    | none =>
      simp only [ucsLoop, hpop] at hq
      cases hq
    | some pr =>
      obtain ⟨e, rest⟩ := pr
      simp only [ucsLoop, hpop] at hq
      by_cases hword : e.word = t
      · rw [if_pos hword] at hq
        cases hq
        have := hgood e (popMin_mem hpop)
        rw [hword] at this
        exact this
      · rw [if_neg hword] at hq
        apply ih _ _ q hq
        intro x hx
        rcases (mem_expandU hnd).mp hx with hx' | ⟨y, hyn, hys, rfl⟩
        · exact hgood x ((popMin_perm hpop).symm.subset (List.mem_cons_of_mem _ hx'))
        · exact (hgood e (popMin_mem hpop)).snoc hyn

/- ### `get_neighbors` produces no duplicates -/

theorem substitute_inj_c {w : Word} {i : ℕ} {c1 c2 : Char}
    (h : substitute w i c1 = substitute w i c2) : c1 = c2 := by
  induction w generalizing i with
  | nil => exact List.singleton_injective h
  | cons hd t ih =>
    cases i with
    | zero => exact (List.cons.inj h).1
    | succ i => exact ih (List.cons.inj h).2

theorem substitute_self {w : Word} {i : ℕ} (h : i < w.length) :
    substitute w i (w.get ⟨i, h⟩) = w := by
  induction w generalizing i with
  | nil => simp at h
  | cons hd t ih =>
    cases i with
    | zero => rfl
    | succ i =>
      simp only [List.length_cons, Nat.succ_lt_succ_iff] at h
      simp only [substitute, List.get]
      rw [ih h]

theorem substitute_get_ne {w : Word} {i j : ℕ} {c : Char}
    (hi : i < w.length) (hj : j < w.length) (hne : i ≠ j) :
    (substitute w i c).get ⟨j, by rw [substitute_length c hi]; exact hj⟩ =
      w.get ⟨j, hj⟩ := by
  induction w generalizing i j with
  | nil => simp at hj
  | cons hd t ih =>
    cases i with
    | zero =>
      cases j with
      | zero => exact absurd rfl hne
      | succ j => rfl
    | succ i =>
      cases j with
      | zero => rfl
      | succ j =>
        simp only [List.length_cons, Nat.succ_lt_succ_iff] at hi hj
        exact ih hi hj (fun h => hne (by omega))

/-- Two valid substitutions at distinct positions never produce the same
word: one of them would have to reproduce the original word. -/
theorem substitute_ne_of_ne_pos {w : Word} {i j : ℕ} {c1 c2 : Char}
    (hi : i < w.length) (hj : j < w.length) (hij : i ≠ j)
    (hne2 : substitute w j c2 ≠ w) :
    substitute w i c1 ≠ substitute w j c2 := by
  intro heq
  -- compare the two sides at position j
  have hg1 : (substitute w i c1).get
      ⟨j, by rw [substitute_length c1 hi]; exact hj⟩ = w.get ⟨j, hj⟩ :=
    substitute_get_ne hi hj hij
  have hg2 : (substitute w j c2).get
      ⟨j, by rw [substitute_length c2 hj]; exact hj⟩ = c2 :=
    substitute_get c2 hj
  have hg3 := List.get_of_eq heq
    ⟨j, by rw [substitute_length c1 hi]; exact hj⟩
  rw [hg1] at hg3
  have hc2w : c2 = w.get ⟨j, hj⟩ := by
    rw [← hg2]
    exact hg3.symm
  apply hne2
  rw [hc2w]
  exact substitute_self hj

theorem get_neighbors_nodup (ws banned : List Word) (w : Word) :
    (get_neighbors ws banned w).Nodup := by
  unfold get_neighbors
  rw [List.nodup_flatMap]
  constructor
  · intro i _
    apply List.Nodup.filterMap
    · intro a a' b hb hb'
      simp only [Option.mem_def] at hb hb'
      split at hb
      · split at hb'
        · exact substitute_inj_c ((Option.some.inj hb).trans (Option.some.inj hb').symm)
        · cases hb'
      · cases hb
    · decide
  · rw [List.pairwise_iff_get]
    intro a b hab
    have ha : (List.range w.length).get a = a.1 := by
      rw [List.get_eq_getElem]
      exact List.getElem_range _ _
    have hb : (List.range w.length).get b = b.1 := by
      rw [List.get_eq_getElem]
      exact List.getElem_range _ _
    rw [Function.onFun, ha, hb]
    intro x hxa hxb
    have hai : a.1 < w.length := by
      have h2 := a.2
      simpa using h2
    have hbi : b.1 < w.length := by
      have h2 := b.2
      simpa using h2
    have haij : a.1 ≠ b.1 := by
      have : a.1 < b.1 := by
        have hab' : a < b := hab
        rw [ha, hb] at *
        exact Fin.lt_iff_val_lt_val.mp hab
      omega
    obtain ⟨c1, -, hc1⟩ := List.mem_filterMap.mp hxa
    obtain ⟨c2, -, hc2⟩ := List.mem_filterMap.mp hxb
    simp only [ne_eq] at hc1 hc2
    split at hc1
    · rename_i hcond1
      split at hc2
      · rename_i hcond2
        have h1 := Option.some.inj hc1
        have h2 := Option.some.inj hc2
        have hne := @substitute_ne_of_ne_pos w a.1 b.1 c1 c2 hai hbi haij hcond2.1
        exact hne (h1.trans h2.symm)
      · cases hc2
    · cases hc1

/- ### Claim C1: optimality of `uniform_cost_search` -/

theorem potSum_le (U : List Word) (B : ℕ) (V : Word → Option ℕ)
    (h : ∀ w ∈ U, potV B (V w) ≤ B + 1) : potSum U B V ≤ U.length * (B + 1) := by
  induction U with
  | nil => simp [potSum]
  | cons a tl ih =>
    simp only [potSum, List.map_cons, List.sum_cons, List.length_cons]
    have h1 := h a (List.mem_cons_self _ _)
    have h2 := ih (fun w hw => h w (List.mem_cons_of_mem _ hw))
    simp only [potSum] at h2
    have : (tl.length + 1) * (B + 1) = tl.length * (B + 1) + (B + 1) := by ring
    omega

/-- **C1**: on a lowercase dictionary, for valid unbanned equal-length words,
`uniform_cost_search` returns a ladder whose length is minimal among all
ladders (i.e. whose edge count is the breadth-first shortest-path distance)
whenever the target is reachable, and `none` when it is not. -/
theorem C1_uniform_cost_search_optimal (ws banned : List Word)
    (start target : Word) (hdict : LowercaseDict ws)
    (hslc : Lowercase start) (htlc : Lowercase target)
    (hsv : is_valid_word ws banned start = true)
    (htv : is_valid_word ws banned target = true)
    (hlen : start.length = target.length) :
    ((∃ p, LadderFrom (get_neighbors ws banned) start target p) →
        ∃ q, uniform_cost_search ws banned start target = some q ∧
          LadderFrom (get_neighbors ws banned) start target q ∧
          ∀ r, LadderFrom (get_neighbors ws banned) start target r →
            q.length ≤ r.length) ∧
      ((¬ ∃ p, LadderFrom (get_neighbors ws banned) start target p) →
        uniform_cost_search ws banned start target = none) := by
  have hnd : ∀ w, (get_neighbors ws banned w).Nodup :=
    fun w => get_neighbors_nodup ws banned w
  have hstart_mem : start ∈ ws := by
    have hv := of_decide_eq_true hsv
    rw [lowerWord_eq_self hslc] at hv
    exact hv.1
  have hUnd : ws.dedup.Nodup := ws.nodup_dedup
  have hsU : start ∈ ws.dedup := List.mem_dedup.mpr hstart_mem
  have hclosed : ∀ w ∈ ws.dedup, ∀ y ∈ get_neighbors ws banned w, y ∈ ws.dedup := by
    intro w hw y hy
    have hwlc : Lowercase w := hdict w (List.mem_dedup.mp hw)
    rcases mem_get_neighbors_iff.mp hy with ⟨i, hi, c, hc, rfl, -, hv, -⟩
    have hylc : Lowercase (substitute w i c) := lowercase_substitute hwlc hc
    have hv2 := of_decide_eq_true hv
    rw [lowerWord_eq_self hylc] at hv2
    exact List.mem_dedup.mpr hv2.1
  have hinv : UInv (get_neighbors ws banned) ws.dedup start target
      ⟨[⟨0, start, [start]⟩], fun w => if w = start then some 0 else none⟩ := by
    refine ⟨?_, ?_, ?_, ?_, ?_, ?_⟩
    · intro e he
      rcases List.mem_singleton.mp he with rfl
      exact ⟨ladderFrom_singleton _ _, rfl⟩
    · intro e he
      rcases List.mem_singleton.mp he with rfl
      intro w hw
      rcases List.mem_singleton.mp hw with rfl
      exact hsU
    · intro e he
      rcases List.mem_singleton.mp he with rfl
      exact List.nodup_singleton _
    · intro e he
      rcases List.mem_singleton.mp he with rfl
      intro i hilt
      have hi0 : i = 0 := by
        have h2 : i < 1 := hilt
        omega
      subst hi0
      exact ⟨0, by simp, le_refl 0⟩
    · intro w v hw
      have hw2 : (if w = start then some 0 else none) = some v := hw
      by_cases hws : w = start
      · subst hws
        rw [if_pos rfl] at hw2
        cases hw2
        exact ⟨[w], ladderFrom_singleton _ _, rfl⟩
      · rw [if_neg hws] at hw2
        cases hw2
    · intro w v hw
      have hw2 : (if w = start then some 0 else none) = some v := hw
      by_cases hws : w = start
      · subst hws
        rw [if_pos rfl] at hw2
        cases hw2
        exact Or.inl ⟨⟨0, w, [w]⟩, List.mem_singleton.mpr rfl, rfl, rfl⟩
      · rw [if_neg hws] at hw2
        cases hw2
  have hgood0 : ∀ e ∈ ([⟨0, start, [start]⟩] : List UEntry),
      LadderFrom (get_neighbors ws banned) start e.word e.path := by
    intro e he
    rcases List.mem_singleton.mp he with rfl
    exact ladderFrom_singleton _ _
  have hsearch : uniform_cost_search ws banned start target =
      ucsLoop (get_neighbors ws banned) target (searchFuel ws)
        ⟨[⟨0, start, [start]⟩], fun w => if w = start then some 0 else none⟩ := by
    unfold uniform_cost_search
    rw [if_pos ⟨hsv, htv⟩]
  have hphi : phiU ws.dedup
      ⟨[⟨0, start, [start]⟩], fun w => if w = start then some 0 else none⟩ <
        searchFuel ws := by
    have hpot : potSum ws.dedup ws.dedup.length
        (fun w => if w = start then some 0 else none) ≤
          ws.dedup.length * (ws.dedup.length + 1) := by
      apply potSum_le
      intro w _
      by_cases hws : w = start
      · simp [hws, potV]
      · simp [hws, potV]
    have hmul : ws.dedup.length * (ws.dedup.length + 1) ≤
        (ws.dedup.length + 1) * (ws.dedup.length + 1) :=
      Nat.mul_le_mul_right _ (Nat.le_succ _)
    simp only [phiU, searchFuel, List.length_singleton]
    have h2 : 2 * ((ws.dedup.length + 1) * (ws.dedup.length + 1)) =
        2 * (ws.dedup.length + 1) * (ws.dedup.length + 1) := by ring
    omega
  constructor
  · rintro ⟨p, hp⟩
    have hplen : 1 ≤ p.length := List.length_pos.mpr hp.ne_nil
    have hne : ∃ n, HasLadderN (get_neighbors ws banned) start target n :=
      ⟨p.length - 1, p, hp, by omega⟩
    have hmem : HasLadderN (get_neighbors ws banned) start target
        (sInf {n | HasLadderN (get_neighbors ws banned) start target n}) :=
      Nat.sInf_mem hne
    have hmin : MinLadderN (get_neighbors ws banned) start target
        (sInf {n | HasLadderN (get_neighbors ws banned) start target n}) :=
      ⟨hmem, fun m hm => Nat.sInf_le hm⟩
    have hcomp : UComp (get_neighbors ws banned) target
        (sInf {n | HasLadderN (get_neighbors ws banned) start target n})
        ⟨[⟨0, start, [start]⟩], fun w => if w = start then some 0 else none⟩ :=
      ⟨⟨0, start, [start]⟩, List.mem_singleton.mpr rfl, _, hmem, Nat.zero_add _⟩
    obtain ⟨q, hq, hlq, hql⟩ :=
      ucsLoop_finds hclosed hUnd hnd hmin (searchFuel ws) _ hinv hcomp hphi
    refine ⟨q, by rw [hsearch]; exact hq, hlq, ?_⟩
    intro r hr
    have hrlen : 1 ≤ r.length := List.length_pos.mpr hr.ne_nil
    have hrla : HasLadderN (get_neighbors ws banned) start target (r.length - 1) :=
      ⟨r, hr, by omega⟩
    have := hmin.2 _ hrla
    omega
  · intro hnp
    cases hres : uniform_cost_search ws banned start target with
    | none => rfl
    | some q =>
      rw [hsearch] at hres
      have hlad := ucsLoop_sound hnd (searchFuel ws) _ hgood0 q hres
      exact absurd ⟨q, hlad⟩ hnp

/-- Witness for C1 on the dictionary `[at, it, of]`: `it` is reachable from
`at` in one step, and the search returns the unique shortest ladder; `of` is
unreachable from `at`, and the search returns `none`. -/
theorem C1_uniform_cost_search_optimal_witness :
    (LowercaseDict [['a','t'], ['i','t'], ['o','f']] ∧
      is_valid_word [['a','t'], ['i','t'], ['o','f']] [] ['a','t'] = true ∧
      is_valid_word [['a','t'], ['i','t'], ['o','f']] [] ['i','t'] = true ∧
      uniform_cost_search [['a','t'], ['i','t'], ['o','f']] [] ['a','t'] ['i','t'] =
        some [['a','t'], ['i','t']]) ∧
    (∃ q, uniform_cost_search [['a','t'], ['i','t'], ['o','f']] []
        ['a','t'] ['i','t'] = some q ∧
      LadderFrom (get_neighbors [['a','t'], ['i','t'], ['o','f']] [])
        ['a','t'] ['i','t'] q ∧
      ∀ r, LadderFrom (get_neighbors [['a','t'], ['i','t'], ['o','f']] [])
        ['a','t'] ['i','t'] r → q.length ≤ r.length) ∧
    uniform_cost_search [['a','t'], ['i','t'], ['o','f']] [] ['a','t'] ['o','f'] =
      none :=
  ⟨⟨by decide, by decide, by decide, by decide⟩,
    (C1_uniform_cost_search_optimal [['a','t'], ['i','t'], ['o','f']] []
        ['a','t'] ['i','t'] (by decide) (by decide) (by decide) (by decide)
        (by decide) (by decide)).1
      ⟨[['a','t'], ['i','t']],
        ⟨rfl, rfl, List.chain'_cons.mpr ⟨by decide, List.chain'_singleton _⟩⟩⟩,
    (C1_uniform_cost_search_optimal [['a','t'], ['i','t'], ['o','f']] []
        ['a','t'] ['o','f'] (by decide) (by decide) (by decide) (by decide)
        (by decide) (by decide)).2
      (by
        rintro ⟨p, hp⟩
        have hall := @LadderFrom.mem_closed
          (get_neighbors [['a','t'], ['i','t'], ['o','f']] [])
          [['a','t'], ['i','t']] (by decide) ['a','t'] ['o','f'] p hp (by decide)
        have hof : (['o','f'] : Word) ∈ p :=
          List.mem_of_getLast?_eq_some hp.2.1
        exact absurd (hall _ hof) (by decide))⟩

/- ### Completeness of A* search (used for the scoring claims) -/

/-- Frontier membership after an A* expansion. -/
theorem mem_expandA {nbrs : Word → List Word} (hnd : ∀ w, (nbrs w).Nodup)
    {target : Word} {e : AEntry} {rest : List AEntry} {V : Word → Option ℕ}
    {x : AEntry} :
    x ∈ (expandA nbrs target e rest V).frontier ↔
      x ∈ rest ∨ ∃ y ∈ nbrs e.word, shouldPush V (e.cost + 1) y = true ∧
        x = ⟨(e.cost + 1 : ℕ) + heuristic y target, e.cost + 1, y,
          e.path ++ [y]⟩ := by
  unfold expandA
  have hfold : ∀ (ns : List Word) (F : List AEntry) (Vc : Word → Option ℕ),
      ns.Nodup →
      (ns.foldl (pushA target e.cost e.path) ⟨F, Vc⟩).frontier =
        F ++ (ns.filter fun y => shouldPush Vc (e.cost + 1) y).map
          (fun y => ⟨(e.cost + 1 : ℕ) + heuristic y target, e.cost + 1, y,
            e.path ++ [y]⟩) := by
    intro ns
    induction ns with
    | nil =>
      intro F Vc _
      simp [List.foldl]
    | cons a tl ih =>
      intro F Vc hnd2
      have hatl : a ∉ tl := (List.nodup_cons.mp hnd2).1
      have htl : tl.Nodup := (List.nodup_cons.mp hnd2).2
      rw [List.foldl_cons]
      have hfilter : tl.filter
            (fun y => shouldPush (updVisited Vc a (e.cost + 1)) (e.cost + 1) y)
          = tl.filter (fun y => shouldPush Vc (e.cost + 1) y) := by
        apply List.filter_congr
        intro y hy
        exact shouldPush_congr (updVisited_ne Vc _ (fun h => hatl (h ▸ hy)))
      by_cases hpa : shouldPush Vc (e.cost + 1) a = true
      · have hstep : pushA target e.cost e.path ⟨F, Vc⟩ a =
            ⟨F ++ [⟨(e.cost + 1 : ℕ) + heuristic a target, e.cost + 1, a,
              e.path ++ [a]⟩], updVisited Vc a (e.cost + 1)⟩ := by
          unfold pushA
          rw [if_pos hpa]
        rw [hstep, ih _ _ htl, hfilter, List.filter_cons_of_pos hpa,
          List.map_cons, List.append_assoc]
        rfl
      · have hstep : pushA target e.cost e.path ⟨F, Vc⟩ a = ⟨F, Vc⟩ := by
          unfold pushA
          rw [if_neg hpa]
        rw [hstep, ih _ _ htl, List.filter_cons_of_neg (by simpa using hpa)]
  rw [hfold _ _ _ (hnd _), List.mem_append]
  constructor
  · rintro (hx | hx)
    · exact Or.inl hx
    · obtain ⟨y, hy, rfl⟩ := List.mem_map.mp hx
      obtain ⟨hyn, hys⟩ := List.mem_filter.mp hy
      exact Or.inr ⟨y, hyn, hys, rfl⟩
  · rintro (hx | ⟨y, hyn, hys, rfl⟩)
    · exact Or.inl hx
    · exact Or.inr (List.mem_map.mpr ⟨y, List.mem_filter.mpr ⟨hyn, hys⟩, rfl⟩)

/-- Visited dictionary after an A* expansion (same update rule as
uniform-cost search). -/
theorem expandA_visited {nbrs : Word → List Word} (hnd : ∀ w, (nbrs w).Nodup)
    {target : Word} {e : AEntry} {rest : List AEntry} {V : Word → Option ℕ}
    (w : Word) :
    (expandA nbrs target e rest V).visited w =
      if w ∈ nbrs e.word ∧ shouldPush V (e.cost + 1) w = true
      then some (e.cost + 1) else V w := by
  unfold expandA
  have hfold : ∀ (ns : List Word) (F : List AEntry) (Vc : Word → Option ℕ),
      ns.Nodup → ∀ u,
      (ns.foldl (pushA target e.cost e.path) ⟨F, Vc⟩).visited u =
        if u ∈ ns ∧ shouldPush Vc (e.cost + 1) u = true
        then some (e.cost + 1) else Vc u := by
    intro ns
    induction ns with
    | nil =>
      intro F Vc _ u
      simp [List.foldl]
    | cons a tl ih =>
      intro F Vc hnd2 u
      have hatl : a ∉ tl := (List.nodup_cons.mp hnd2).1
      have htl : tl.Nodup := (List.nodup_cons.mp hnd2).2
      rw [List.foldl_cons]
      by_cases hpa : shouldPush Vc (e.cost + 1) a = true
      · have hstep : pushA target e.cost e.path ⟨F, Vc⟩ a =
            ⟨F ++ [⟨(e.cost + 1 : ℕ) + heuristic a target, e.cost + 1, a,
              e.path ++ [a]⟩], updVisited Vc a (e.cost + 1)⟩ := by
          unfold pushA
          rw [if_pos hpa]
        rw [hstep, ih _ _ htl]
        by_cases hwa : u = a
        · subst hwa
          rw [if_neg (fun hcon => hatl hcon.1), updVisited_self,
            if_pos ⟨List.mem_cons_self _ _, hpa⟩]
        · rw [updVisited_ne _ _ hwa,
            shouldPush_congr (updVisited_ne Vc _ hwa)]
          by_cases hwtl : u ∈ tl ∧ shouldPush Vc (e.cost + 1) u = true
          · rw [if_pos hwtl, if_pos ⟨List.mem_cons.mpr (Or.inr hwtl.1), hwtl.2⟩]
          · rw [if_neg hwtl, if_neg]
            intro hcon
            exact hwtl ⟨(List.mem_cons.mp hcon.1).resolve_left hwa, hcon.2⟩
      · have hstep : pushA target e.cost e.path ⟨F, Vc⟩ a = ⟨F, Vc⟩ := by
          unfold pushA
          rw [if_neg hpa]
        rw [hstep, ih _ _ htl]
        by_cases hwa : u = a
        · subst hwa
          rw [if_neg (fun hcon => hatl hcon.1), if_neg (fun hcon => hpa hcon.2)]
        · by_cases hwtl : u ∈ tl ∧ shouldPush Vc (e.cost + 1) u = true
          · rw [if_pos hwtl, if_pos ⟨List.mem_cons.mpr (Or.inr hwtl.1), hwtl.2⟩]
          · rw [if_neg hwtl, if_neg]
            intro hcon
            exact hwtl ⟨(List.mem_cons.mp hcon.1).resolve_left hwa, hcon.2⟩
  exact hfold _ _ _ (hnd _) w

theorem expandA_decreasing {nbrs : Word → List Word} (hnd : ∀ w, (nbrs w).Nodup)
    {target : Word} {e : AEntry} {rest : List AEntry} {V : Word → Option ℕ}
    {w : Word} {v : ℕ} (hw : V w = some v) :
    ∃ v', (expandA nbrs target e rest V).visited w = some v' ∧ v' ≤ v := by
  rw [expandA_visited hnd]
  by_cases hcond : w ∈ nbrs e.word ∧ shouldPush V (e.cost + 1) w = true
  · rw [if_pos hcond]
    refine ⟨e.cost + 1, rfl, ?_⟩
    have h2 := hcond.2
    rw [shouldPush_some hw] at h2
    exact le_of_lt (of_decide_eq_true h2)
  · rw [if_neg hcond]
    exact ⟨v, hw, le_refl v⟩

/-- Loop potential of the A* state. -/
def phiA (U : List Word) (st : AState) : ℕ :=
  2 * potSum U U.length st.visited + st.frontier.length

theorem foldl_pushA_phi (U : List Word) (target : Word) (c : ℕ) (p : List Word)
    (hUnd : U.Nodup) (hc : c + 1 ≤ U.length) :
    ∀ (ns : List Word) (F : List AEntry) (V : Word → Option ℕ),
      (∀ y ∈ ns, y ∈ U) →
      phiA U (ns.foldl (pushA target c p) ⟨F, V⟩) ≤ phiA U ⟨F, V⟩ := by
  intro ns
  induction ns with
  | nil =>
    intro F V _
    simp [List.foldl]
  | cons a tl ih =>
    intro F V hns
    have haU : a ∈ U := hns a (List.mem_cons_self _ _)
    rw [List.foldl_cons]
    by_cases hpa : shouldPush V (c + 1) a = true
    · have hstep : pushA target c p ⟨F, V⟩ a =
          ⟨F ++ [⟨(c + 1 : ℕ) + heuristic a target, c + 1, a, p ++ [a]⟩],
            updVisited V a (c + 1)⟩ := by
        unfold pushA
        rw [if_pos hpa]
      rw [hstep]
      refine le_trans (ih _ _ (fun y hy => hns y (List.mem_cons_of_mem _ hy))) ?_
      have hupd := potSum_update U U.length V hUnd haU (c + 1)
      have hdrop : c + 1 + 1 ≤ potV U.length (V a) := by
        unfold shouldPush at hpa
        cases hVa : V a with
        | none => simp [potV]; omega
        | some v =>
          rw [hVa] at hpa
          have h2 := of_decide_eq_true hpa
          simp [potV]
          omega
      simp only [phiA, List.length_append, List.length_singleton]
      omega
    · have hstep : pushA target c p ⟨F, V⟩ a = ⟨F, V⟩ := by
        unfold pushA
        rw [if_neg hpa]
      rw [hstep]
      exact ih _ _ (fun y hy => hns y (List.mem_cons_of_mem _ hy))

/-- The invariant maintained by the `a_star_search` loop (a weakening of the
uniform-cost one: no visited-soundness or cost-bound on the live entry is
needed, since only completeness is claimed for A*). -/
structure AInv (nbrs : Word → List Word) (U : List Word) (s t : Word)
    (st : AState) : Prop where
  good : ∀ e ∈ st.frontier,
    LadderFrom nbrs s e.word e.path ∧ e.path.length = e.cost + 1
  inU : ∀ e ∈ st.frontier, ∀ w ∈ e.path, w ∈ U
  nodupPath : ∀ e ∈ st.frontier, e.path.Nodup
  pbound : ∀ e ∈ st.frontier, ∀ i, ∀ h : i < e.path.length,
    ∃ v, st.visited (e.path.get ⟨i, h⟩) = some v ∧ v ≤ i
  live : ∀ w v, st.visited w = some v →
    (∃ e ∈ st.frontier, e.word = w) ∨
    (w ≠ t ∧ ∀ z ∈ nbrs w, ∃ vz, st.visited z = some vz)

theorem AInv.word_memA {nbrs : Word → List Word} {U : List Word} {s t : Word}
    {st : AState} (inv : AInv nbrs U s t st) {e : AEntry}
    (he : e ∈ st.frontier) : e.word ∈ U := by
  have hlast := (inv.good e he).1.2.1
  exact inv.inU e he _ (List.mem_of_getLast?_eq_some hlast)

/-- Preservation of the A* invariant by one expansion. -/
theorem AInv_expand {nbrs : Word → List Word} {U : List Word} {s t : Word}
    (hU : ∀ w ∈ U, ∀ y ∈ nbrs w, y ∈ U) (hnd : ∀ w, (nbrs w).Nodup)
    {st : AState} (inv : AInv nbrs U s t st) {e : AEntry} {rest : List AEntry}
    (hpop : popMin st.frontier = some (e, rest)) (hnt : e.word ≠ t) :
    AInv nbrs U s t (expandA nbrs t e rest st.visited) := by
  set V := st.visited with hV
  have hperm := popMin_perm hpop
  have he_mem : e ∈ st.frontier := popMin_mem hpop
  have hrest : ∀ x ∈ rest, x ∈ st.frontier := fun x hx =>
    hperm.symm.subset (List.mem_cons_of_mem _ hx)
  have hegood := inv.good e he_mem
  have heU : e.word ∈ U := inv.word_memA he_mem
  have hpush_not_mem : ∀ y ∈ nbrs e.word, shouldPush V (e.cost + 1) y = true →
      y ∉ e.path := by
    intro y _ hys hyp
    obtain ⟨i, hget⟩ := List.mem_iff_get.mp hyp
    obtain ⟨v, hv, hvle⟩ := inv.pbound e he_mem i.1 i.2
    have hv2 : V y = some v := by
      rw [← hget]
      exact hv
    rw [shouldPush_some hv2] at hys
    have hlt := of_decide_eq_true hys
    have hi2 : i.1 < e.path.length := i.2
    have hplen := hegood.2
    omega
  have hpush_ladder : ∀ y ∈ nbrs e.word,
      LadderFrom nbrs s y (e.path ++ [y]) := fun y hy => hegood.1.snoc hy
  refine ⟨?_, ?_, ?_, ?_, ?_⟩
  · intro x hx
    rcases (mem_expandA hnd).mp hx with hx' | ⟨y, hyn, hys, rfl⟩
    · exact inv.good x (hrest x hx')
    · exact ⟨hpush_ladder y hyn, by simp [hegood.2]⟩
  · intro x hx
    rcases (mem_expandA hnd).mp hx with hx' | ⟨y, hyn, hys, rfl⟩
    · exact inv.inU x (hrest x hx')
    · intro w hw
      rcases List.mem_append.mp hw with hw' | hw'
      · exact inv.inU e he_mem w hw'
      · rcases List.mem_singleton.mp hw' with rfl
        exact hU _ heU _ hyn
  · intro x hx
    rcases (mem_expandA hnd).mp hx with hx' | ⟨y, hyn, hys, rfl⟩
    · exact inv.nodupPath x (hrest x hx')
    · simp only [List.nodup_append, List.nodup_singleton]
      exact ⟨inv.nodupPath e he_mem, trivial,
        by simpa [List.disjoint_singleton] using hpush_not_mem y hyn hys⟩
  · intro x hx i hilt
    rcases (mem_expandA hnd).mp hx with hx' | ⟨y, hyn, hys, rfl⟩
    · obtain ⟨v, hv, hvle⟩ := inv.pbound x (hrest x hx') i hilt
      obtain ⟨v', hv', hv'le⟩ := expandA_decreasing hnd hv
      exact ⟨v', hv', le_trans hv'le hvle⟩
    · have hilt2 : i < e.path.length + 1 := by simpa using hilt
      by_cases hip : i < e.path.length
      · have hget : (e.path ++ [y]).get ⟨i, hilt⟩ = e.path.get ⟨i, hip⟩ := by
          rw [List.get_eq_getElem, List.get_eq_getElem]
          exact List.getElem_append_left hip
        rw [hget]
        obtain ⟨v, hv, hvle⟩ := inv.pbound e he_mem i hip
        obtain ⟨v', hv', hv'le⟩ := expandA_decreasing hnd hv
        exact ⟨v', hv', le_trans hv'le hvle⟩
      · have hieq : i = e.path.length := by omega
        clear hilt2
        have hget : (e.path ++ [y]).get ⟨i, hilt⟩ = y := by
          rw [List.get_eq_getElem]
          rw [List.getElem_append_right (by simpa using le_of_eq hieq.symm)]
          simp [hieq]
        rw [hget]
        refine ⟨e.cost + 1, ?_, ?_⟩
        · rw [expandA_visited hnd, if_pos ⟨hyn, hys⟩]
        · omega
  · intro w v hw
    rw [expandA_visited hnd] at hw
    by_cases hcond : w ∈ nbrs e.word ∧ shouldPush V (e.cost + 1) w = true
    · rw [if_pos hcond] at hw
      cases hw
      refine Or.inl ⟨⟨(e.cost + 1 : ℕ) + heuristic w t, e.cost + 1, w,
        e.path ++ [w]⟩, ?_, rfl⟩
      exact (mem_expandA hnd).mpr (Or.inr ⟨w, hcond.1, hcond.2, rfl⟩)
    · rw [if_neg hcond] at hw
      rcases inv.live w v hw with ⟨x, hxf, hxw⟩ | ⟨hwt, hbound⟩
      · rcases List.mem_cons.mp (hperm.subset hxf) with hx | hx
        · have hew : e.word = w := by rw [← hx]; exact hxw
          refine Or.inr ⟨fun hwt => hnt (by rw [hew, hwt]), ?_⟩
          intro z hz
          rw [← hew] at hz
          by_cases hzc : z ∈ nbrs e.word ∧ shouldPush V (e.cost + 1) z = true
          · refine ⟨e.cost + 1, ?_⟩
            rw [expandA_visited hnd, if_pos hzc]
          · have hzs : ¬ shouldPush V (e.cost + 1) z = true :=
              fun hs => hzc ⟨hz, hs⟩
            cases hVz : V z with
            | none => exact absurd (shouldPush_none hVz) hzs
            | some vz =>
              refine ⟨vz, ?_⟩
              rw [expandA_visited hnd, if_neg hzc, hVz]
        · exact Or.inl ⟨x, (mem_expandA hnd).mpr (Or.inl hx), hxw⟩
      · refine Or.inr ⟨hwt, ?_⟩
        intro z hz
        obtain ⟨vz, hvz⟩ := hbound z hz
        obtain ⟨vz', hvz', -⟩ := expandA_decreasing hnd hvz
        exact ⟨vz', hvz'⟩

/-- Completeness witness for A*: some frontier entry can still reach `t`. -/
def AComp (nbrs : Word → List Word) (t : Word) (st : AState) : Prop :=
  ∃ e ∈ st.frontier, ∃ k, HasLadderN nbrs e.word t k

theorem chaseA {nbrs : Word → List Word} {U : List Word} {s t : Word}
    {st : AState} (inv : AInv nbrs U s t st) :
    ∀ k y v, st.visited y = some v → HasLadderN nbrs y t k →
      AComp nbrs t st := by
  intro k
  induction k with
  | zero =>
    intro y v hv hlad
    have hyt : y = t := hlad.eq_of_zero
    rcases inv.live y v hv with ⟨e, he, hw⟩ | ⟨hne, -⟩
    · exact ⟨e, he, 0, by rw [hw, hyt]; exact ⟨[t], ladderFrom_singleton _ _, rfl⟩⟩
    · exact absurd hyt hne
  | succ k ih =>
    intro y v hv hlad
    rcases inv.live y v hv with ⟨e, he, hw⟩ | ⟨hne, hbound⟩
    · exact ⟨e, he, k + 1, by rw [hw]; exact hlad⟩
    · obtain ⟨z, hz, hlad'⟩ := hlad.cons_decomp
      obtain ⟨vz, hvz⟩ := hbound z hz
      exact ih z vz hvz hlad'

theorem AComp_expand {nbrs : Word → List Word} {U : List Word} {s t : Word}
    (hnd : ∀ w, (nbrs w).Nodup) {st : AState}
    {e : AEntry} {rest : List AEntry}
    (hpop : popMin st.frontier = some (e, rest)) (hnt : e.word ≠ t)
    (inv' : AInv nbrs U s t (expandA nbrs t e rest st.visited))
    (hcomp : AComp nbrs t st) :
    AComp nbrs t (expandA nbrs t e rest st.visited) := by
  obtain ⟨e₀, he₀, k₀, hlad₀⟩ := hcomp
  rcases List.mem_cons.mp ((popMin_perm hpop).subset he₀) with hx | hx
  · have hlad₁ : HasLadderN nbrs e.word t k₀ := by rw [← hx]; exact hlad₀
    cases k₀ with
    | zero => exact absurd hlad₁.eq_of_zero hnt
    | succ k =>
      obtain ⟨z, hz, hladz⟩ := hlad₁.cons_decomp
      by_cases hzp : shouldPush st.visited (e.cost + 1) z = true
      · exact ⟨⟨(e.cost + 1 : ℕ) + heuristic z t, e.cost + 1, z, e.path ++ [z]⟩,
          (mem_expandA hnd).mpr (Or.inr ⟨z, hz, hzp, rfl⟩), k, hladz⟩
      · cases hVz : st.visited z with
        | none => exact absurd (shouldPush_none hVz) hzp
        | some vz =>
          have hVz' : (expandA nbrs t e rest st.visited).visited z = some vz := by
            rw [expandA_visited hnd, if_neg (fun hcon => hzp hcon.2), hVz]
          exact chaseA inv' k z vz hVz' hladz
  · exact ⟨e₀, (mem_expandA hnd).mpr (Or.inl hx), k₀, hlad₀⟩

/-- The A* loop returns some genuine ladder whenever the target is reachable
from a frontier entry and the fuel exceeds the potential. -/
theorem aStarLoop_finds {nbrs : Word → List Word} {U : List Word} {s t : Word}
    (hU : ∀ w ∈ U, ∀ y ∈ nbrs w, y ∈ U) (hUnd : U.Nodup)
    (hnd : ∀ w, (nbrs w).Nodup) :
    ∀ fuel (st : AState), AInv nbrs U s t st → AComp nbrs t st →
      phiA U st < fuel →
      ∃ q, aStarLoop nbrs t fuel st = some q ∧ LadderFrom nbrs s t q := by
  intro fuel
  induction fuel with
  | zero =>
    intro st _ _ h
    exact absurd h (Nat.not_lt_zero _)
  | succ fuel ih =>
    intro st inv comp hphi
    obtain ⟨e₀, he₀, k₀, hlad₀⟩ := comp
    cases hpop : popMin st.frontier with
    | none =>
      rw [popMin_eq_none_iff] at hpop
      rw [hpop] at he₀
      cases he₀
    | some pr =>
      obtain ⟨e, rest⟩ := pr
      have he_mem := popMin_mem hpop
      by_cases hword : e.word = t
      · have hgood := inv.good e he_mem
        refine ⟨e.path, ?_, ?_⟩
        · simp only [aStarLoop, hpop]
          rw [if_pos hword]
        · rw [← hword]
          exact hgood.1
      · have inv' := AInv_expand hU hnd inv hpop hword
        have comp' := AComp_expand hnd hpop hword inv' ⟨e₀, he₀, k₀, hlad₀⟩
        have hegood := inv.good e he_mem
        have hcbound : e.cost + 1 ≤ U.length := by
          have hnodup := inv.nodupPath e he_mem
          have hsub := (List.subperm_of_subset hnodup (inv.inU e he_mem)).length_le
          have h2 := hegood.2
          omega
        have hphi1 : phiA U (expandA nbrs t e rest st.visited) ≤
            phiA U ⟨rest, st.visited⟩ := by
          unfold expandA
          exact foldl_pushA_phi U t e.cost e.path hUnd hcbound _ rest st.visited
            (fun y hy => hU _ (inv.word_memA he_mem) _ hy)
        have hflen : st.frontier.length = rest.length + 1 := by
          have h2 := (popMin_perm hpop).length_eq
          simpa using h2
        have hphi' : phiA U (expandA nbrs t e rest st.visited) < fuel := by
          have h2 : phiA U ⟨rest, st.visited⟩ + 1 = phiA U st := by
            simp only [phiA]
            omega
          omega
        obtain ⟨q, hq, hlq⟩ := ih (expandA nbrs t e rest st.visited) inv' comp' hphi'
        refine ⟨q, ?_, hlq⟩
        simp only [aStarLoop, hpop]
        rw [if_neg hword]
        exact hq

/-- **A\* completeness** (supporting the scoring claims): on a lowercase
dictionary, `a_star_search` succeeds whenever a ladder exists. -/
theorem a_star_search_complete (ws banned : List Word) (start target : Word)
    (hdict : LowercaseDict ws) (hslc : Lowercase start)
    (hsv : is_valid_word ws banned start = true)
    (htv : is_valid_word ws banned target = true)
    (hreach : ∃ p, LadderFrom (get_neighbors ws banned) start target p) :
    ∃ q, a_star_search ws banned start target = some q ∧
      LadderFrom (get_neighbors ws banned) start target q := by
  have hnd : ∀ w, (get_neighbors ws banned w).Nodup :=
    fun w => get_neighbors_nodup ws banned w
  have hstart_mem : start ∈ ws := by
    have hv := of_decide_eq_true hsv
    rw [lowerWord_eq_self hslc] at hv
    exact hv.1
  have hUnd : ws.dedup.Nodup := ws.nodup_dedup
  have hsU : start ∈ ws.dedup := List.mem_dedup.mpr hstart_mem
  have hclosed : ∀ w ∈ ws.dedup, ∀ y ∈ get_neighbors ws banned w, y ∈ ws.dedup := by
    intro w hw y hy
    have hwlc : Lowercase w := hdict w (List.mem_dedup.mp hw)
    rcases mem_get_neighbors_iff.mp hy with ⟨i, hi, c, hc, rfl, -, hv, -⟩
    have hylc : Lowercase (substitute w i c) := lowercase_substitute hwlc hc
    have hv2 := of_decide_eq_true hv
    rw [lowerWord_eq_self hylc] at hv2
    exact List.mem_dedup.mpr hv2.1
  have hinv : AInv (get_neighbors ws banned) ws.dedup start target
      ⟨[⟨heuristic start target, 0, start, [start]⟩],
        fun w => if w = start then some 0 else none⟩ := by
    refine ⟨?_, ?_, ?_, ?_, ?_⟩
    · intro e he
      rcases List.mem_singleton.mp he with rfl
      exact ⟨ladderFrom_singleton _ _, rfl⟩
    · intro e he
      rcases List.mem_singleton.mp he with rfl
      intro w hw
      rcases List.mem_singleton.mp hw with rfl
      exact hsU
    · intro e he
      rcases List.mem_singleton.mp he with rfl
      exact List.nodup_singleton _
    · intro e he
      rcases List.mem_singleton.mp he with rfl
      intro i hilt
      have hi0 : i = 0 := by
        have h2 : i < 1 := hilt
        omega
      subst hi0
      exact ⟨0, by simp, le_refl 0⟩
    · intro w v hw
      have hw2 : (if w = start then some 0 else none) = some v := hw
      by_cases hws : w = start
      · subst hws
        rw [if_pos rfl] at hw2
        cases hw2
        exact Or.inl ⟨⟨heuristic w target, 0, w, [w]⟩,
          List.mem_singleton.mpr rfl, rfl⟩
      · rw [if_neg hws] at hw2
        cases hw2
  obtain ⟨p, hp⟩ := hreach
  have hplen : 1 ≤ p.length := List.length_pos.mpr hp.ne_nil
  have hcomp : AComp (get_neighbors ws banned) target
      ⟨[⟨heuristic start target, 0, start, [start]⟩],
        fun w => if w = start then some 0 else none⟩ :=
    ⟨⟨heuristic start target, 0, start, [start]⟩, List.mem_singleton.mpr rfl,
      p.length - 1, p, hp, by omega⟩
  have hphi : phiA ws.dedup
      ⟨[⟨heuristic start target, 0, start, [start]⟩],
        fun w => if w = start then some 0 else none⟩ < searchFuel ws := by
    have hpot : potSum ws.dedup ws.dedup.length
        (fun w => if w = start then some 0 else none) ≤
          ws.dedup.length * (ws.dedup.length + 1) := by
      apply potSum_le
      intro w _
      by_cases hws : w = start
      · simp [hws, potV]
      · simp [hws, potV]
    have hmul : ws.dedup.length * (ws.dedup.length + 1) ≤
        (ws.dedup.length + 1) * (ws.dedup.length + 1) :=
      Nat.mul_le_mul_right _ (Nat.le_succ _)
    simp only [phiA, searchFuel, List.length_singleton]
    have h2 : 2 * ((ws.dedup.length + 1) * (ws.dedup.length + 1)) =
        2 * (ws.dedup.length + 1) * (ws.dedup.length + 1) := by ring
    omega
  obtain ⟨q, hq, hlq⟩ :=
    aStarLoop_finds hclosed hUnd hnd (searchFuel ws) _ hinv hcomp hphi
  refine ⟨q, ?_, hlq⟩
  unfold a_star_search
  rw [if_pos ⟨hsv, htv⟩]
  exact hq

/- ### Claim C2: determinism and the alleged discovery-sequence number -/

/-- One iteration of the `uniform_cost_search` loop (pop + expand), used to
inspect intermediate frontier states of a run. -/
def ucsIter (nbrs : Word → List Word) (st : UState) : UState :=
  match popMin st.frontier with
  | none => st
  | some (e, rest) => expandU nbrs e rest st.visited

/-- **C2 counterexample.**  Frontier entries are appended in discovery order
(`expandU` appends pushes, `popMin` keeps the survivors' relative order), so
if every pushed entry carried a monotonically increasing discovery-sequence
number as the final tie-break field of its priority key, the final fields of
the frontier — read in frontier order — would be strictly increasing in the
entry order at every point of a run.  They are not: the entry type carries
the accumulated *path* as its final field, and on the dictionary
`[aa, ab, ac, bb]`, starting from `aa` (neither popped word is a target),
after two iterations the later-discovered entry's final field
`[aa, ab, bb]` compares strictly *below* the earlier `[aa, ac]`. -/
theorem C2_no_sequence_number_counterexample :
    ((ucsIter (get_neighbors [['a','a'], ['a','b'], ['a','c'], ['b','b']] [])
        (ucsIter (get_neighbors [['a','a'], ['a','b'], ['a','c'], ['b','b']] [])
          ⟨[⟨0, ['a','a'], [['a','a']]⟩],
            fun w => if w = ['a','a'] then some 0 else none⟩)).frontier.map
        (fun e => e.path) =
      [[['a','a'], ['a','c']], [['a','a'], ['a','b'], ['b','b']]]) ∧
    ([['a','a'], ['a','b'], ['b','b']] : List Word) <
      ([['a','a'], ['a','c']] : List Word) := by
  constructor
  · decide
  · decide

/-- `heapq.heappop` on permuted heaps yields the same minimum and permuted
remainders. -/
theorem popMin_congr {α : Type} [LinearOrder α] {l1 l2 : List α}
    (h : l1.Perm l2) :
    (popMin l1 = none ∧ popMin l2 = none) ∨
      ∃ m r1 r2, popMin l1 = some (m, r1) ∧ popMin l2 = some (m, r2) ∧
        r1.Perm r2 := by
  cases hl1 : popMin l1 with
  | none =>
    left
    have h1 : l1 = [] := popMin_eq_none_iff.mp hl1
    subst h1
    have h2 : l2 = [] := h.symm.eq_nil
    exact ⟨rfl, popMin_eq_none_iff.mpr h2⟩
  | some pr1 =>
    obtain ⟨m1, r1⟩ := pr1
    cases hl2 : popMin l2 with
    | none =>
      have h2 : l2 = [] := popMin_eq_none_iff.mp hl2
      subst h2
      have h1 : l1 = [] := h.eq_nil
      rw [h1] at hl1
      cases hl1
    | some pr2 =>
      obtain ⟨m2, r2⟩ := pr2
      right
      have hm1 : m1 ∈ l2 := h.subset (popMin_mem hl1)
      have hm2 : m2 ∈ l1 := h.symm.subset (popMin_mem hl2)
      have heq : m1 = m2 :=
        le_antisymm (popMin_le hl1 _ hm2) (popMin_le hl2 _ hm1)
      subst heq
      refine ⟨m1, r1, r2, rfl, rfl, ?_⟩
      have hp1 := popMin_perm hl1
      have hp2 := popMin_perm hl2
      exact (hp1.symm.trans (h.trans hp2)).cons_inv

/-- One expansion of `uniform_cost_search` depends on the neighbour
enumeration only through the underlying neighbour *set*: the resulting
visited dictionaries agree and the frontiers are permutations. -/
theorem expandU_congr {nbrs1 nbrs2 : Word → List Word}
    (hperm : ∀ w, (nbrs1 w).Perm (nbrs2 w)) (hnd : ∀ w, (nbrs1 w).Nodup)
    {e : UEntry} {r1 r2 : List UEntry} (hr : r1.Perm r2) (V : Word → Option ℕ) :
    (expandU nbrs1 e r1 V).visited = (expandU nbrs2 e r2 V).visited ∧
      (expandU nbrs1 e r1 V).frontier.Perm (expandU nbrs2 e r2 V).frontier := by
  have hnd2 : ∀ w, (nbrs2 w).Nodup := fun w => ((hperm w).nodup_iff).mp (hnd w)
  constructor
  · funext w
    rw [expandU_visited hnd, expandU_visited hnd2]
    by_cases hc : w ∈ nbrs1 e.word ∧ shouldPush V (e.cost + 1) w = true
    · rw [if_pos hc, if_pos ⟨(hperm e.word).subset hc.1, hc.2⟩]
    · rw [if_neg hc, if_neg]
      intro hcon
      exact hc ⟨(hperm e.word).symm.subset hcon.1, hcon.2⟩
  · unfold expandU
    rw [foldl_pushU_frontier _ _ _ _ _ (hnd _),
      foldl_pushU_frontier _ _ _ _ _ (hnd2 _)]
    exact hr.append (((hperm e.word).filter _).map _)

/-- The `uniform_cost_search` loop is invariant under permuting the
neighbour enumeration and the heap layout. -/
theorem ucsLoop_congr {nbrs1 nbrs2 : Word → List Word}
    (hperm : ∀ w, (nbrs1 w).Perm (nbrs2 w)) (hnd : ∀ w, (nbrs1 w).Nodup)
    (t : Word) :
    ∀ fuel (st1 st2 : UState), st1.visited = st2.visited →
      st1.frontier.Perm st2.frontier →
      ucsLoop nbrs1 t fuel st1 = ucsLoop nbrs2 t fuel st2 := by
  intro fuel
  induction fuel with
  | zero => intro st1 st2 _ _; rfl
  | succ fuel ih =>
    intro st1 st2 hv hf
    rcases popMin_congr hf with ⟨h1, h2⟩ | ⟨m, r1, r2, h1, h2, hr⟩
    · simp only [ucsLoop, h1, h2]
    · simp only [ucsLoop, h1, h2]
      by_cases hword : m.word = t
      · rw [if_pos hword, if_pos hword]
      · rw [if_neg hword, if_neg hword, ← hv]
        obtain ⟨hv', hf'⟩ := expandU_congr hperm hnd hr st1.visited
        exact ih _ _ hv' hf'

/-- Frontier after an A* expansion, as a list equation. -/
theorem expandA_frontier {nbrs : Word → List Word} (hnd : ∀ w, (nbrs w).Nodup)
    {target : Word} {e : AEntry} {rest : List AEntry} {V : Word → Option ℕ} :
    (expandA nbrs target e rest V).frontier =
      rest ++ ((nbrs e.word).filter fun y => shouldPush V (e.cost + 1) y).map
        (fun y => ⟨(e.cost + 1 : ℕ) + heuristic y target, e.cost + 1, y,
          e.path ++ [y]⟩) := by
  unfold expandA
  have hfold : ∀ (ns : List Word) (F : List AEntry) (Vc : Word → Option ℕ),
      ns.Nodup →
      (ns.foldl (pushA target e.cost e.path) ⟨F, Vc⟩).frontier =
        F ++ (ns.filter fun y => shouldPush Vc (e.cost + 1) y).map
          (fun y => ⟨(e.cost + 1 : ℕ) + heuristic y target, e.cost + 1, y,
            e.path ++ [y]⟩) := by
    intro ns
    induction ns with
    | nil =>
      intro F Vc _
      simp [List.foldl]
    | cons a tl ih =>
      intro F Vc hnd2
      have hatl : a ∉ tl := (List.nodup_cons.mp hnd2).1
      have htl : tl.Nodup := (List.nodup_cons.mp hnd2).2
      rw [List.foldl_cons]
      have hfilter : tl.filter
            (fun y => shouldPush (updVisited Vc a (e.cost + 1)) (e.cost + 1) y)
          = tl.filter (fun y => shouldPush Vc (e.cost + 1) y) := by
        apply List.filter_congr
        intro y hy
        exact shouldPush_congr (updVisited_ne Vc _ (fun h => hatl (h ▸ hy)))
      by_cases hpa : shouldPush Vc (e.cost + 1) a = true
      · have hstep : pushA target e.cost e.path ⟨F, Vc⟩ a =
            ⟨F ++ [⟨(e.cost + 1 : ℕ) + heuristic a target, e.cost + 1, a,
              e.path ++ [a]⟩], updVisited Vc a (e.cost + 1)⟩ := by
          unfold pushA
          rw [if_pos hpa]
        rw [hstep, ih _ _ htl, hfilter, List.filter_cons_of_pos hpa,
          List.map_cons, List.append_assoc]
        rfl
      · have hstep : pushA target e.cost e.path ⟨F, Vc⟩ a = ⟨F, Vc⟩ := by
          unfold pushA
          rw [if_neg hpa]
        rw [hstep, ih _ _ htl, List.filter_cons_of_neg (by simpa using hpa)]
  exact hfold _ _ _ (hnd _)

theorem expandA_congr {nbrs1 nbrs2 : Word → List Word}
    (hperm : ∀ w, (nbrs1 w).Perm (nbrs2 w)) (hnd : ∀ w, (nbrs1 w).Nodup)
    {target : Word} {e : AEntry} {r1 r2 : List AEntry} (hr : r1.Perm r2)
    (V : Word → Option ℕ) :
    (expandA nbrs1 target e r1 V).visited =
        (expandA nbrs2 target e r2 V).visited ∧
      (expandA nbrs1 target e r1 V).frontier.Perm
        (expandA nbrs2 target e r2 V).frontier := by
  have hnd2 : ∀ w, (nbrs2 w).Nodup := fun w => ((hperm w).nodup_iff).mp (hnd w)
  constructor
  · funext w
    rw [expandA_visited hnd, expandA_visited hnd2]
    by_cases hc : w ∈ nbrs1 e.word ∧ shouldPush V (e.cost + 1) w = true
    · rw [if_pos hc, if_pos ⟨(hperm e.word).subset hc.1, hc.2⟩]
    · rw [if_neg hc, if_neg]
      intro hcon
      exact hc ⟨(hperm e.word).symm.subset hcon.1, hcon.2⟩
  · rw [expandA_frontier hnd, expandA_frontier hnd2]
    exact hr.append (((hperm e.word).filter _).map _)

theorem aStarLoop_congr {nbrs1 nbrs2 : Word → List Word}
    (hperm : ∀ w, (nbrs1 w).Perm (nbrs2 w)) (hnd : ∀ w, (nbrs1 w).Nodup)
    (t : Word) :
    ∀ fuel (st1 st2 : AState), st1.visited = st2.visited →
      st1.frontier.Perm st2.frontier →
      aStarLoop nbrs1 t fuel st1 = aStarLoop nbrs2 t fuel st2 := by
  intro fuel
  induction fuel with
  | zero => intro st1 st2 _ _; rfl
  | succ fuel ih =>
    intro st1 st2 hv hf
    rcases popMin_congr hf with ⟨h1, h2⟩ | ⟨m, r1, r2, h1, h2, hr⟩
    · simp only [aStarLoop, h1, h2]
    · simp only [aStarLoop, h1, h2]
      by_cases hword : m.word = t
      · rw [if_pos hword, if_pos hword]
      · rw [if_neg hword, if_neg hword, ← hv]
        obtain ⟨hv', hf'⟩ := expandA_congr hperm hnd hr st1.visited
        exact ih _ _ hv' hf'

/- Greedy best-first search: expansion characterisation and congruence. -/

/-- The `visited` set after a greedy expansion: every enumerated neighbour
is marked seen. -/
theorem expandG_visited {nbrs : Word → List Word} (hnd : ∀ w, (nbrs w).Nodup)
    {target : Word} {e : GEntry} {rest : List GEntry} {V : Word → Bool}
    (w : Word) :
    (expandG nbrs target e rest V).visited w =
      if w ∈ nbrs e.word then true else V w := by
  unfold expandG
  have hfold : ∀ (ns : List Word) (F : List GEntry) (Vc : Word → Bool),
      ns.Nodup → ∀ u,
      (ns.foldl (pushG target e.path) ⟨F, Vc⟩).visited u =
        if u ∈ ns then true else Vc u := by
    intro ns
    induction ns with
    | nil =>
      intro F Vc _ u
      simp [List.foldl]
    | cons a tl ih =>
      intro F Vc hnd2 u
      have hatl : a ∉ tl := (List.nodup_cons.mp hnd2).1
      have htl : tl.Nodup := (List.nodup_cons.mp hnd2).2
      rw [List.foldl_cons]
      by_cases hpa : Vc a = true
      · have hstep : pushG target e.path ⟨F, Vc⟩ a = ⟨F, Vc⟩ := by
          unfold pushG
          rw [if_pos hpa]
        rw [hstep, ih _ _ htl]
        by_cases hua : u = a
        · subst hua
          rw [if_neg hatl, if_pos (List.mem_cons_self _ _), hpa]
        · by_cases hutl : u ∈ tl
          · rw [if_pos hutl, if_pos (List.mem_cons.mpr (Or.inr hutl))]
          · rw [if_neg hutl, if_neg]
            intro hcon
            exact hutl ((List.mem_cons.mp hcon).resolve_left hua)
      · have hstep : pushG target e.path ⟨F, Vc⟩ a =
            ⟨F ++ [⟨heuristic a target, a, e.path ++ [a]⟩],
              fun w => if w = a then true else Vc w⟩ := by
          unfold pushG
          rw [if_neg hpa]
        rw [hstep, ih _ _ htl]
        by_cases hua : u = a
        · subst hua
          rw [if_neg hatl, if_pos rfl, if_pos (List.mem_cons_self _ _)]
        · rw [if_neg hua]
          by_cases hutl : u ∈ tl
          · rw [if_pos hutl, if_pos (List.mem_cons.mpr (Or.inr hutl))]
          · rw [if_neg hutl, if_neg]
            intro hcon
            exact hutl ((List.mem_cons.mp hcon).resolve_left hua)
  exact hfold _ _ _ (hnd _) w

/-- The frontier after a greedy expansion: one new entry per never-seen
neighbour, in enumeration order. -/
theorem expandG_frontier {nbrs : Word → List Word} (hnd : ∀ w, (nbrs w).Nodup)
    {target : Word} {e : GEntry} {rest : List GEntry} {V : Word → Bool} :
    (expandG nbrs target e rest V).frontier =
      rest ++ ((nbrs e.word).filter fun y => !(V y)).map
        (fun y => ⟨heuristic y target, y, e.path ++ [y]⟩) := by
  unfold expandG
  have hfold : ∀ (ns : List Word) (F : List GEntry) (Vc : Word → Bool),
      ns.Nodup →
      (ns.foldl (pushG target e.path) ⟨F, Vc⟩).frontier =
        F ++ (ns.filter fun y => !(Vc y)).map
          (fun y => ⟨heuristic y target, y, e.path ++ [y]⟩) := by
    intro ns
    induction ns with
    | nil =>
      intro F Vc _
      simp [List.foldl]
    | cons a tl ih =>
      intro F Vc hnd2
      have hatl : a ∉ tl := (List.nodup_cons.mp hnd2).1
      have htl : tl.Nodup := (List.nodup_cons.mp hnd2).2
      rw [List.foldl_cons]
      by_cases hpa : Vc a = true
      · have hstep : pushG target e.path ⟨F, Vc⟩ a = ⟨F, Vc⟩ := by
          unfold pushG
          rw [if_pos hpa]
        rw [hstep, ih _ _ htl, List.filter_cons_of_neg (by simp [hpa])]
      · have hVa : Vc a = false := by simpa using hpa
        have hstep : pushG target e.path ⟨F, Vc⟩ a =
            ⟨F ++ [⟨heuristic a target, a, e.path ++ [a]⟩],
              fun w => if w = a then true else Vc w⟩ := by
          unfold pushG
          rw [if_neg hpa]
        have hfilter : tl.filter (fun y => !(if y = a then true else Vc y))
            = tl.filter (fun y => !(Vc y)) := by
          apply List.filter_congr
          intro y hy
          have hne : ¬ (y = a) := by
            intro h
            subst h
            exact hatl hy
          rw [if_neg hne]
        rw [hstep, ih _ _ htl, hfilter,
          List.filter_cons_of_pos (by simp [hVa]), List.map_cons,
          List.append_assoc]
        rfl
  exact hfold _ _ _ (hnd _)

theorem expandG_congr {nbrs1 nbrs2 : Word → List Word}
    (hperm : ∀ w, (nbrs1 w).Perm (nbrs2 w)) (hnd : ∀ w, (nbrs1 w).Nodup)
    {target : Word} {e : GEntry} {r1 r2 : List GEntry} (hr : r1.Perm r2)
    (V : Word → Bool) :
    (expandG nbrs1 target e r1 V).visited =
        (expandG nbrs2 target e r2 V).visited ∧
      (expandG nbrs1 target e r1 V).frontier.Perm
        (expandG nbrs2 target e r2 V).frontier := by
  have hnd2 : ∀ w, (nbrs2 w).Nodup := fun w => ((hperm w).nodup_iff).mp (hnd w)
  constructor
  · funext w
    rw [expandG_visited hnd, expandG_visited hnd2]
    by_cases hc : w ∈ nbrs1 e.word
    · rw [if_pos hc, if_pos ((hperm e.word).subset hc)]
    · rw [if_neg hc, if_neg (fun hcon => hc ((hperm e.word).symm.subset hcon))]
  · rw [expandG_frontier hnd, expandG_frontier hnd2]
    exact hr.append (((hperm e.word).filter _).map _)

theorem greedyLoop_congr {nbrs1 nbrs2 : Word → List Word}
    (hperm : ∀ w, (nbrs1 w).Perm (nbrs2 w)) (hnd : ∀ w, (nbrs1 w).Nodup)
    (t : Word) :
    ∀ fuel (st1 st2 : GState), st1.visited = st2.visited →
      st1.frontier.Perm st2.frontier →
      greedyLoop nbrs1 t fuel st1 = greedyLoop nbrs2 t fuel st2 := by
  intro fuel
  induction fuel with
  | zero => intro st1 st2 _ _; rfl
  | succ fuel ih =>
    intro st1 st2 hv hf
    rcases popMin_congr hf with ⟨h1, h2⟩ | ⟨m, r1, r2, h1, h2, hr⟩
    · simp only [greedyLoop, h1, h2]
    · simp only [greedyLoop, h1, h2]
      by_cases hword : m.word = t
      · rw [if_pos hword, if_pos hword]
      · rw [if_neg hword, if_neg hword, ← hv]
        obtain ⟨hv', hf'⟩ := expandG_congr hperm hnd hr st1.visited
        exact ih _ _ hv' hf'

/-- **C2 (amended)**: the pushed entries carry *no* discovery-sequence
number — the final tuple field is the accumulated path (see the
counterexample) — yet each of the three searches is deterministic for a
fixed dictionary and banned set: the full lexicographic comparison of
entry tuples totally orders the frontier, so running any of the three
loops with *any* re-enumeration (permutation) of each neighbour set
returns exactly the path computed by the source functions, independent of
set-iteration order. -/
theorem C2_searches_deterministic (ws banned : List Word)
    (start target : Word) (nbrs2 : Word → List Word)
    (hperm : ∀ w, (get_neighbors ws banned w).Perm (nbrs2 w))
    (hv : is_valid_word ws banned start = true ∧
      is_valid_word ws banned target = true) :
    aStarLoop nbrs2 target (searchFuel ws)
        ⟨[⟨heuristic start target, 0, start, [start]⟩],
          fun w => if w = start then some 0 else none⟩ =
      a_star_search ws banned start target ∧
    greedyLoop nbrs2 target (searchFuel ws)
        ⟨[⟨heuristic start target, start, [start]⟩],
          fun w => if w = start then true else false⟩ =
      greedy_best_first_search ws banned start target ∧
    ucsLoop nbrs2 target (searchFuel ws)
        ⟨[⟨0, start, [start]⟩], fun w => if w = start then some 0 else none⟩ =
      uniform_cost_search ws banned start target := by
  have hnd2 : ∀ w, (nbrs2 w).Nodup :=
    fun w => ((hperm w).nodup_iff).mp (get_neighbors_nodup ws banned w)
  have hperm' : ∀ w, (nbrs2 w).Perm (get_neighbors ws banned w) :=
    fun w => (hperm w).symm
  refine ⟨?_, ?_, ?_⟩
  · unfold a_star_search
    rw [if_pos hv]
    exact aStarLoop_congr hperm' hnd2 target (searchFuel ws) _ _ rfl
      (List.Perm.refl _)
  · unfold greedy_best_first_search
    rw [if_pos hv]
    exact greedyLoop_congr hperm' hnd2 target (searchFuel ws) _ _ rfl
      (List.Perm.refl _)
  · unfold uniform_cost_search
    rw [if_pos hv]
    exact ucsLoop_congr hperm' hnd2 target (searchFuel ws) _ _ rfl
      (List.Perm.refl _)

/-- Witness for C2 (amended): enumerating every neighbour set in *reverse*
order still returns exactly the source searches' paths on the `cat → dog`
dictionary. -/
theorem C2_searches_deterministic_witness :
    (∀ w, (get_neighbors
        [['c','a','t'], ['c','o','t'], ['c','o','g'], ['d','o','g'],
         ['d','o','t'], ['c','a','g']] [] w).Perm
      ((get_neighbors
        [['c','a','t'], ['c','o','t'], ['c','o','g'], ['d','o','g'],
         ['d','o','t'], ['c','a','g']] [] w).reverse)) ∧
    ucsLoop (fun w => (get_neighbors
        [['c','a','t'], ['c','o','t'], ['c','o','g'], ['d','o','g'],
         ['d','o','t'], ['c','a','g']] [] w).reverse) ['d','o','g']
        (searchFuel [['c','a','t'], ['c','o','t'], ['c','o','g'], ['d','o','g'],
          ['d','o','t'], ['c','a','g']])
        ⟨[⟨0, ['c','a','t'], [['c','a','t']]⟩],
          fun w => if w = ['c','a','t'] then some 0 else none⟩ =
      uniform_cost_search
        [['c','a','t'], ['c','o','t'], ['c','o','g'], ['d','o','g'],
         ['d','o','t'], ['c','a','g']] [] ['c','a','t'] ['d','o','g'] :=
  ⟨fun w => (List.reverse_perm _).symm,
    (C2_searches_deterministic
      [['c','a','t'], ['c','o','t'], ['c','o','g'], ['d','o','g'],
       ['d','o','t'], ['c','a','g']] [] ['c','a','t'] ['d','o','g']
      (fun w => (get_neighbors
        [['c','a','t'], ['c','o','t'], ['c','o','g'], ['d','o','g'],
         ['d','o','t'], ['c','a','g']] [] w).reverse)
      (fun w => (List.reverse_perm _).symm) ⟨by decide, by decide⟩).2.2⟩

/- ### The game session: difficulty settings, moves and scoring -/

/-- The three difficulty keys of `DIFFICULTY_SETTINGS`. -/
inductive Difficulty where
  | beginner
  | advanced
  | challenge
deriving DecidableEq

/-- One value of the `DIFFICULTY_SETTINGS` dictionary. -/
structure DifficultySettings where
  word_length_range : ℕ × ℕ
  banned_words : List Word
  time_limit : WithTop ℕ
  hint_limit : ℕ
  base_score : ℕ
  optimal_path_bonus : ℕ
  time_factor : ℕ
  move_factor : ℕ
  hint_factor : ℕ

/-- The class-level `DIFFICULTY_SETTINGS` table (`float('inf')` is `⊤`). -/
def DIFFICULTY_SETTINGS : Difficulty → DifficultySettings
  | .beginner => ⟨(3, 4), [], ⊤, 5, 1000, 300, 2, 25, 50⟩
  | .advanced => ⟨(5, 6), [], ((300 : ℕ) : WithTop ℕ), 3, 2000, 500, 5, 50, 150⟩
  | .challenge => ⟨(6, 8), [], ((180 : ℕ) : WithTop ℕ), 1, 3000, 1000, 10, 100, 300⟩

/-- The mutable state of a `WordLadderGame` instance (the display graph is
not modelled; no claim concerns it).  Timestamps are rationals; a missing
start time is `none`. -/
structure Game where
  word_set : List Word
  current_word : Word
  target_word : Word
  path_history : List Word
  start_time : Option ℚ
  score : ℤ
  difficulty : Difficulty
  hints_remaining : WithTop ℕ
  time_limit : WithTop ℕ
  banned_words : List Word
  base_score : ℕ
  hints_used : ℕ
  optimal_path_bonus : ℕ
  time_factor : ℕ
  move_factor : ℕ
  hint_factor : ℕ

/-- The injected random source (spec §9: randomness as an explicit
dependency).  Per-attempt draws take the attempt index so that successive
calls can differ, as with Python's global `random` state. -/
structure Rnd where
  randint : ℕ → ℕ → ℕ
  sample : List Word → ℕ → List Word
  choiceStart : ℕ → List Word → Word
  choiceTarget : ℕ → List Word → Word
  randDist : ℕ → ℕ → ℕ → ℕ

/-- `setup_difficulty`: overwrite the session configuration from the
settings table; challenge mode additionally samples a fresh banned set. -/
def setup_difficulty (rnd : Rnd) (g : Game) (difficulty : Difficulty) : Game :=
  let settings := DIFFICULTY_SETTINGS difficulty
  let g1 : Game :=
    { g with
      difficulty := difficulty
      hints_remaining := (settings.hint_limit : WithTop ℕ)
      time_limit := settings.time_limit
      base_score := settings.base_score
      optimal_path_bonus := settings.optimal_path_bonus
      time_factor := settings.time_factor
      move_factor := settings.move_factor
      hint_factor := settings.hint_factor }
  if difficulty = .challenge then
    let word_length := rnd.randint settings.word_length_range.1
      settings.word_length_range.2
    let potential_words := g1.word_set.filter
      (fun w => decide (w.length = word_length))
    { g1 with banned_words :=
        rnd.sample potential_words (min 10 potential_words.length) }
  else
    { g1 with banned_words := settings.banned_words }

/-- `start_game`: configure the difficulty (before any validation!), then
validate lengths, words, path existence and the difficulty's path-length
range; on success initialise the session. -/
def start_game (rnd : Rnd) (g : Game) (start_word target_word : Word)
    (difficulty : Difficulty) (now : ℚ) : Bool × Game :=
  let start_word := lowerWord start_word
  let target_word := lowerWord target_word
  let g1 := setup_difficulty rnd g difficulty
  if start_word.length ≠ target_word.length then (false, g1)
  else if ¬ (is_valid_word g1.word_set g1.banned_words start_word = true ∧
      is_valid_word g1.word_set g1.banned_words target_word = true) then
    (false, g1)
  else
    match a_star_search g1.word_set g1.banned_words start_word target_word with
    | none => (false, g1)
    | some path =>
      if path = [] then (false, g1)
      else
        let path_length := path.length - 1
        if (difficulty = .beginner ∧ path_length > 4) ∨
            (difficulty = .advanced ∧ (path_length < 4 ∨ path_length > 7)) ∨
            (difficulty = .challenge ∧ path_length < 7) then (false, g1)
        else
          (true,
            { g1 with
              current_word := start_word
              target_word := target_word
              path_history := [start_word]
              start_time := some now
              score := 0
              hints_used := 0 })

/-- The progressive hint penalty `Σ_{i=1..hints_used} hint_factor * i`,
accumulated exactly as the `for i in range(1, hints_used + 1)` loop does. -/
def hint_penalty (hint_factor : ℤ) (hints_used : ℕ) : ℤ :=
  (List.range' 1 hints_used).foldl (fun acc (i : ℕ) => acc + hint_factor * i) 0

/-- `calculate_score`; `none` models the exceptions the Python code raises
when the start time is unset, the path history is empty, or the A* call
returns `None`.  `int(...)` truncation is modelled by `⌊·⌋` (all floored
quantities are non-negative on the Python paths). -/
def calculate_score (g : Game) (now : ℚ) : Option (ℤ × Game) :=
  match g.start_time with
  | none => none
  | some t0 =>
    let time_taken : ℚ := now - t0
    match g.path_history.head? with
    | none => none
    | some first =>
      match a_star_search g.word_set g.banned_words first g.target_word with
      | none => none
      | some opt_path =>
        let optimal_path_length : ℕ := opt_path.length - 1
        let user_path_length : ℕ := g.path_history.length - 1
        let settings := DIFFICULTY_SETTINGS g.difficulty
        let base_score : ℤ := settings.base_score
        let extra_moves : ℕ := user_path_length - optimal_path_length
        let score1 : ℤ := base_score +
          (if extra_moves = 0 then (settings.optimal_path_bonus : ℤ)
           else if extra_moves ≤ 2 then
             ⌊(settings.optimal_path_bonus : ℚ) * (1 - (extra_moves : ℚ) / 5)⌋
           else 0)
        let score2 : ℤ :=
          match g.time_limit with
          | some limit =>
            let time_percentage : ℚ := time_taken / (limit : ℚ)
            if time_percentage < 1 / 2 then
              score1 + ⌊((1 / 2 : ℚ) - time_percentage) * (base_score : ℚ) * (1 / 2)⌋
            else if time_percentage > 4 / 5 then
              score1 - ⌊(time_percentage - 4 / 5) * (base_score : ℚ) * (1 / 2)⌋
            else score1
          | none =>
            score1 - min ⌊time_taken * (settings.time_factor : ℚ)⌋
              ⌊(base_score : ℚ) * (3 / 10)⌋
        let score3 : ℤ :=
          if 0 < extra_moves then score2 - extra_moves * settings.move_factor
          else score2
        let score4 : ℤ :=
          if 0 < g.hints_used then
            score3 - hint_penalty (settings.hint_factor : ℤ) g.hints_used
          else score3
        let final : ℤ := max 0 score4
        some (final, { g with score := final })

/-- Number of differing aligned positions,
`sum(1 for a, b in zip(new_word, current_word) if a != b)`. -/
def hammingDiff (a b : Word) : ℕ :=
  (a.zip b).countP (fun p => decide (p.1 ≠ p.2))

/-- `make_move`; `none` models the exception propagated out of
`calculate_score` when the winning move's score computation fails. -/
def make_move (g : Game) (now : ℚ) (new_word : Word) : Option (Bool × Game) :=
  let w := lowerWord new_word
  if ¬ is_valid_word g.word_set g.banned_words w = true then some (false, g)
  else if w.length ≠ g.current_word.length then some (false, g)
  else if hammingDiff w g.current_word ≠ 1 then some (false, g)
  else
    let g2 : Game :=
      { g with current_word := w, path_history := g.path_history ++ [w] }
    if w = g2.target_word then
      match calculate_score g2 now with
      | none => none
      | some pr => some (true, pr.2)
    else some (true, g2)

/- ### `suggest_word_pair` -/

/-- One round of the layered breadth expansion in `suggest_word_pair`:
extend `visited` and build the next level from the neighbours of the
current level that are new and of the right length. -/
def expandLevel (ws banned : List Word) (word_length : ℕ)
    (visited level : List Word) : List Word × List Word :=
  level.foldl
    (fun acc word =>
      (get_neighbors ws banned word).foldl
        (fun acc2 neighbor =>
          if neighbor ∉ acc2.1 ∧ neighbor.length = word_length then
            (acc2.1 ++ [neighbor], acc2.2 ++ [neighbor])
          else acc2)
        acc)
    (visited, [])

/-- The `for _ in range(target_distance)` loop of `suggest_word_pair`,
with the `if not current_level: break` early exit. -/
def bfsLevelLoop (ws banned : List Word) (word_length : ℕ) :
    ℕ → List Word → List Word → List Word
  | 0, _, level => level
  | n + 1, visited, level =>
    let st := expandLevel ws banned word_length visited level
    if st.2 = [] then st.2
    else bfsLevelLoop ws banned word_length n st.1 st.2

/-- One attempt of the `for _ in range(max_attempts)` loop. -/
def suggestAttempt (rnd : Rnd) (k : ℕ) (ws banned : List Word)
    (difficulty : Difficulty) (word_length : ℕ) (valid_words : List Word) :
    Option (Word × Word) :=
  let start_word := rnd.choiceStart k valid_words
  let target_distance :=
    match difficulty with
    | .beginner => rnd.randDist k 2 4
    | .advanced => rnd.randDist k 4 7
    | .challenge => rnd.randDist k 7 10
  let current_level :=
    bfsLevelLoop ws banned word_length target_distance [start_word] [start_word]
  if current_level = [] then none
  else
    let potential_targets := current_level.filter (fun w => decide (w ≠ start_word))
    if potential_targets = [] then none
    else
      let target_word := rnd.choiceTarget k potential_targets
      match a_star_search ws banned start_word target_word with
      | none => none
      | some path =>
        if path = [] then none
        else
          let path_length := path.length - 1
          if (difficulty = .beginner ∧ 2 ≤ path_length ∧ path_length ≤ 4) ∨
              (difficulty = .advanced ∧ 4 ≤ path_length ∧ path_length ≤ 7) ∨
              (difficulty = .challenge ∧ 7 ≤ path_length) then
            some (start_word, target_word)
          else none

/-- The attempt loop (`max_attempts = 50`), indexed by attempt number. -/
def suggestLoop (rnd : Rnd) (ws banned : List Word) (difficulty : Difficulty)
    (word_length : ℕ) (valid_words : List Word) :
    ℕ → ℕ → Option (Word × Word)
  | _, 0 => none
  | k, remaining + 1 =>
    match suggestAttempt rnd k ws banned difficulty word_length valid_words with
    | some pr => some pr
    | none =>
      suggestLoop rnd ws banned difficulty word_length valid_words (k + 1) remaining

/-- `suggest_word_pair(difficulty)`; `(None, None)` is modelled as `none`. -/
def suggest_word_pair (rnd : Rnd) (ws banned : List Word)
    (difficulty : Difficulty) : Option (Word × Word) :=
  let word_length :=
    match difficulty with
    | .beginner => rnd.randint 3 4
    | .advanced => rnd.randint 5 6
    | .challenge => rnd.randint 6 8
  let valid_words := ws.filter
    (fun w => decide (w.length = word_length) && decide (w ∉ banned) &&
      decide (Lowercase w))
  if valid_words.length < 2 then none
  else suggestLoop rnd ws banned difficulty word_length valid_words 0 50

/- ### Claim C4: suggested pairs are A*-verified within the difficulty range -/

theorem suggestAttempt_some {rnd : Rnd} {k : ℕ} {ws banned : List Word}
    {difficulty : Difficulty} {word_length : ℕ} {valid_words : List Word}
    {s t : Word}
    (h : suggestAttempt rnd k ws banned difficulty word_length valid_words =
      some (s, t)) :
    ∃ p, a_star_search ws banned s t = some p ∧
      ((difficulty = .beginner ∧ 2 ≤ p.length - 1 ∧ p.length - 1 ≤ 4) ∨
        (difficulty = .advanced ∧ 4 ≤ p.length - 1 ∧ p.length - 1 ≤ 7) ∨
        (difficulty = .challenge ∧ 7 ≤ p.length - 1)) := by
  cases difficulty <;>
  · unfold suggestAttempt at h
    dsimp only at h
    split at h
    · cases h
    · split at h
      · cases h
      · split at h
        · cases h
        · rename_i hastar
          split at h
          · cases h
          · split at h
            · rename_i hbound
              cases h
              exact ⟨_, hastar, hbound⟩
            · cases h

theorem suggestLoop_verified (rnd : Rnd) (ws banned : List Word)
    (difficulty : Difficulty) (word_length : ℕ) (valid_words : List Word) :
    ∀ remaining k,
      suggestLoop rnd ws banned difficulty word_length valid_words k remaining =
          none ∨
        ∃ s t p,
          suggestLoop rnd ws banned difficulty word_length valid_words k
              remaining = some (s, t) ∧
            a_star_search ws banned s t = some p ∧
            ((difficulty = .beginner ∧ 2 ≤ p.length - 1 ∧ p.length - 1 ≤ 4) ∨
              (difficulty = .advanced ∧ 4 ≤ p.length - 1 ∧ p.length - 1 ≤ 7) ∨
              (difficulty = .challenge ∧ 7 ≤ p.length - 1)) := by
  intro remaining
  induction remaining with
  | zero => intro k; exact Or.inl rfl
  | succ remaining ih =>
    intro k
    cases hatt : suggestAttempt rnd k ws banned difficulty word_length
        valid_words with
    | none =>
      have hstep : suggestLoop rnd ws banned difficulty word_length valid_words
          k (remaining + 1) =
          suggestLoop rnd ws banned difficulty word_length valid_words (k + 1)
            remaining := by
        simp only [suggestLoop, hatt]
      rw [hstep]
      exact ih (k + 1)
    | some pr =>
      obtain ⟨s, t⟩ := pr
      obtain ⟨p, hp, hb⟩ := suggestAttempt_some hatt
      refine Or.inr ⟨s, t, p, ?_, hp, hb⟩
      simp only [suggestLoop, hatt]

/-- **C4**: whenever `suggest_word_pair` returns a pair, an A*-verified path
exists between the two returned words whose edge count lies in [2,4] for
beginner, [4,7] for advanced and is at least 7 for challenge; otherwise
(in particular after its 50 attempts are exhausted) it returns none. -/
theorem C4_suggest_word_pair_verified (rnd : Rnd) (ws banned : List Word)
    (difficulty : Difficulty) :
    suggest_word_pair rnd ws banned difficulty = none ∨
      ∃ s t p, suggest_word_pair rnd ws banned difficulty = some (s, t) ∧
        a_star_search ws banned s t = some p ∧
        ((difficulty = .beginner ∧ 2 ≤ p.length - 1 ∧ p.length - 1 ≤ 4) ∨
          (difficulty = .advanced ∧ 4 ≤ p.length - 1 ∧ p.length - 1 ≤ 7) ∨
          (difficulty = .challenge ∧ 7 ≤ p.length - 1)) := by
  cases difficulty <;>
  · unfold suggest_word_pair
    dsimp only
    split
    · exact Or.inl rfl
    · exact suggestLoop_verified rnd ws banned _ _ _ 50 0

/- ### Claim C7: move validation -/

/-- A successful `calculate_score` only stores the score; all other session
fields are untouched. -/
theorem calculate_score_preserves {g : Game} {now : ℚ} {s : ℤ} {g' : Game}
    (h : calculate_score g now = some (s, g')) : g' = { g with score := s } := by
  unfold calculate_score at h
  split at h
  · cases h
  · split at h
    · cases h
    · split at h
      · cases h
      · rw [Option.some.injEq, Prod.mk.injEq] at h
        rw [← h.2, ← h.1]

theorem make_move_true_spec {g : Game} {now : ℚ} {w : Word} {g' : Game}
    (h : make_move g now w = some (true, g')) :
    is_valid_word g.word_set g.banned_words (lowerWord w) = true ∧
      (lowerWord w).length = g.current_word.length ∧
      hammingDiff (lowerWord w) g.current_word = 1 ∧
      g'.path_history = g.path_history ++ [lowerWord w] ∧
      g'.current_word = lowerWord w ∧
      g'.word_set = g.word_set ∧
      g'.banned_words = g.banned_words ∧
      g'.target_word = g.target_word := by
  unfold make_move at h
  dsimp only at h
  split at h
  · simp at h
  · rename_i hvalid
    rw [not_not] at hvalid
    split at h
    · simp at h
    · rename_i hlen
      rw [not_ne_iff] at hlen
      split at h
      · simp at h
      · rename_i hham
        rw [not_ne_iff] at hham
        split at h
        · rename_i htgt
          split at h
          · cases h
          · rename_i pr hcal
            rw [Option.some.injEq, Prod.mk.injEq] at h
            obtain ⟨pr1, pr2⟩ := pr
            have hpres := calculate_score_preserves hcal
            rw [← h.2, hpres]
            exact ⟨hvalid, hlen, hham, rfl, rfl, rfl, rfl, rfl⟩
        · rw [Option.some.injEq, Prod.mk.injEq] at h
          rw [← h.2]
          exact ⟨hvalid, hlen, hham, rfl, rfl, rfl, rfl, rfl⟩

/-- **C7**: `make_move` returns `False` (leaving the session unchanged)
when the lower-cased word is invalid (absent from the corpus or banned),
when its length differs from the current word's, or when it differs from
the current word in a number of positions other than one; on success it
appends the lower-cased word to the path history and makes it the current
word. -/
theorem C7_make_move_validation (g : Game) (now : ℚ) (w : Word) :
    (is_valid_word g.word_set g.banned_words (lowerWord w) = false →
        make_move g now w = some (false, g)) ∧
      ((lowerWord w).length ≠ g.current_word.length →
        make_move g now w = some (false, g)) ∧
      (hammingDiff (lowerWord w) g.current_word ≠ 1 →
        make_move g now w = some (false, g)) ∧
      (∀ g', make_move g now w = some (true, g') →
        g'.path_history = g.path_history ++ [lowerWord w] ∧
          g'.current_word = lowerWord w) := by
  refine ⟨?_, ?_, ?_, ?_⟩
  · intro hinv
    unfold make_move
    rw [if_pos]
    rw [hinv]
    simp
  · intro hlen
    unfold make_move
    by_cases hval : is_valid_word g.word_set g.banned_words (lowerWord w) = true
    · rw [if_neg (by rw [hval]; simp), if_pos hlen]
    · rw [if_pos hval]
  · intro hham
    unfold make_move
    by_cases hval : is_valid_word g.word_set g.banned_words (lowerWord w) = true
    · by_cases hlen : (lowerWord w).length ≠ g.current_word.length
      · rw [if_neg (by rw [hval]; simp), if_pos hlen]
      · rw [if_neg (by rw [hval]; simp), if_neg hlen, if_pos hham]
    · rw [if_pos hval]
  · intro g' h
    obtain ⟨-, -, -, h4, h5, -⟩ := make_move_true_spec h
    exact ⟨h4, h5⟩

/- ### Claims C9 and C10: session construction -/

theorem setup_difficulty_fields (rnd : Rnd) (g : Game) (d : Difficulty) :
    (setup_difficulty rnd g d).hints_remaining =
        ((DIFFICULTY_SETTINGS d).hint_limit : WithTop ℕ) ∧
      (setup_difficulty rnd g d).time_limit = (DIFFICULTY_SETTINGS d).time_limit ∧
      (setup_difficulty rnd g d).base_score = (DIFFICULTY_SETTINGS d).base_score ∧
      (setup_difficulty rnd g d).optimal_path_bonus =
        (DIFFICULTY_SETTINGS d).optimal_path_bonus ∧
      (setup_difficulty rnd g d).time_factor = (DIFFICULTY_SETTINGS d).time_factor ∧
      (setup_difficulty rnd g d).move_factor = (DIFFICULTY_SETTINGS d).move_factor ∧
      (setup_difficulty rnd g d).hint_factor = (DIFFICULTY_SETTINGS d).hint_factor ∧
      (setup_difficulty rnd g d).word_set = g.word_set := by
  unfold setup_difficulty
  split <;> exact ⟨rfl, rfl, rfl, rfl, rfl, rfl, rfl, rfl⟩

/-- Either `start_game` fails and returns exactly the freshly configured
session, or it succeeds and returns the configured session with the
gameplay fields initialised. -/
theorem start_game_cases (rnd : Rnd) (g : Game) (s t : Word) (d : Difficulty)
    (now : ℚ) :
    start_game rnd g s t d now = (false, setup_difficulty rnd g d) ∨
      start_game rnd g s t d now =
        (true,
          { setup_difficulty rnd g d with
            current_word := lowerWord s
            target_word := lowerWord t
            path_history := [lowerWord s]
            start_time := some now
            score := 0
            hints_used := 0 }) := by
  unfold start_game
  dsimp only
  split
  · exact Or.inl rfl
  · split
    · exact Or.inl rfl
    · split
      · exact Or.inl rfl
      · split
        · exact Or.inl rfl
        · split
          · exact Or.inl rfl
          · exact Or.inr rfl

/-- **C10**: `setup_difficulty` runs before any validation, so every call of
`start_game` that returns `False` has nevertheless already overwritten the
session's hint budget, time limit, base score, scoring factors and
banned-word set with the requested difficulty's values — including, in
challenge mode, a banned set freshly sampled from the random source.  The
failed call is not atomic with respect to the session configuration. -/
theorem C10_start_game_overwrites_config (rnd : Rnd) (g : Game) (s t : Word)
    (d : Difficulty) (now : ℚ)
    (h : (start_game rnd g s t d now).1 = false) :
    (start_game rnd g s t d now).2.hints_remaining =
        ((DIFFICULTY_SETTINGS d).hint_limit : WithTop ℕ) ∧
      (start_game rnd g s t d now).2.time_limit =
        (DIFFICULTY_SETTINGS d).time_limit ∧
      (start_game rnd g s t d now).2.base_score =
        (DIFFICULTY_SETTINGS d).base_score ∧
      (start_game rnd g s t d now).2.optimal_path_bonus =
        (DIFFICULTY_SETTINGS d).optimal_path_bonus ∧
      (start_game rnd g s t d now).2.time_factor =
        (DIFFICULTY_SETTINGS d).time_factor ∧
      (start_game rnd g s t d now).2.move_factor =
        (DIFFICULTY_SETTINGS d).move_factor ∧
      (start_game rnd g s t d now).2.hint_factor =
        (DIFFICULTY_SETTINGS d).hint_factor ∧
      (start_game rnd g s t d now).2.banned_words =
        (setup_difficulty rnd g d).banned_words ∧
      (d = .challenge →
        (start_game rnd g s t d now).2.banned_words =
          rnd.sample
            (g.word_set.filter (fun w => decide (w.length = rnd.randint 6 8)))
            (min 10
              (g.word_set.filter
                (fun w => decide (w.length = rnd.randint 6 8))).length)) := by
  have hbc : ∀ g0 : Game, (setup_difficulty rnd g0 .challenge).banned_words =
      rnd.sample
        (g0.word_set.filter (fun w => decide (w.length = rnd.randint 6 8)))
        (min 10
          (g0.word_set.filter
            (fun w => decide (w.length = rnd.randint 6 8))).length) :=
    fun g0 => rfl
  rcases start_game_cases rnd g s t d now with hc | hc
  · rw [hc]
    obtain ⟨h1, h2, h3, h4, h5, h6, h7, -⟩ := setup_difficulty_fields rnd g d
    refine ⟨h1, h2, h3, h4, h5, h6, h7, rfl, ?_⟩
    rintro rfl
    exact hbc g
  · rw [hc] at h
    cases h

/-- A reachable game session with original (lower-cased) start word `s`:
created by a successful `start_game`, then extended by any number of
successful `make_move` calls. -/
inductive Session : Word → Game → Prop where
  | start (rnd : Rnd) (g : Game) (s t : Word) (d : Difficulty) (now : ℚ)
      (g' : Game) : start_game rnd g s t d now = (true, g') →
      Session (lowerWord s) g'
  | move (s : Word) (g : Game) (now : ℚ) (w : Word) (g' : Game) :
      Session s g → make_move g now w = some (true, g') → Session s g'

theorem start_game_true_spec {rnd : Rnd} {g : Game} {s t : Word}
    {d : Difficulty} {now : ℚ} {g' : Game}
    (h : start_game rnd g s t d now = (true, g')) :
    g'.path_history = [lowerWord s] ∧
      g'.current_word = lowerWord s ∧
      is_valid_word g'.word_set g'.banned_words (lowerWord s) = true := by
  rcases start_game_cases rnd g s t d now with hc | hc
  · rw [hc] at h
    cases h
  · rw [hc] at h
    rw [Prod.mk.injEq] at h
    obtain ⟨-, rfl⟩ := h
    refine ⟨rfl, rfl, ?_⟩
    -- the success branch of `start_game` passed the validity check
    cases hval : is_valid_word (setup_difficulty rnd g d).word_set
        (setup_difficulty rnd g d).banned_words (lowerWord s) with
    | true => rfl
    | false =>
      exfalso
      unfold start_game at hc
      dsimp only at hc
      split at hc
      · cases hc
      · split at hc
        · cases hc
        · rename_i hcond
          rw [not_not] at hcond
          rw [hcond.1] at hval
          cases hval

/-- **C9**: in every session reachable by a successful `start_game` followed
by successful `make_move` calls, the path history is non-empty, begins with
the session's start word, ends with the current word, contains only valid
unbanned dictionary words, and every pair of consecutive words has equal
length and differs in exactly one position. -/
theorem C9_session_path_invariant (s : Word) (g : Game) (h : Session s g) :
    g.path_history ≠ [] ∧
      g.path_history.head? = some s ∧
      g.path_history.getLast? = some g.current_word ∧
      (∀ w ∈ g.path_history, is_valid_word g.word_set g.banned_words w = true) ∧
      List.Chain'
        (fun a b => a.length = b.length ∧ hammingDiff b a = 1)
        g.path_history := by
  induction h with
  | start rnd g0 s0 t0 d0 now g' hstart =>
    obtain ⟨h1, h2, h3⟩ := start_game_true_spec hstart
    rw [h1, h2]
    refine ⟨by simp, rfl, rfl, ?_, List.chain'_singleton _⟩
    intro w hw
    rcases List.mem_singleton.mp hw with rfl
    exact h3
  | move s g0 now w g' hsess hmove ih =>
    obtain ⟨hval, hlen, hham, hpath, hcur, hws, hbw, -⟩ := make_move_true_spec hmove
    obtain ⟨ih1, ih2, ih3, ih4, ih5⟩ := ih
    rw [hpath, hcur, hws, hbw]
    refine ⟨by simp, ?_, ?_, ?_, ?_⟩
    · rw [List.head?_append_of_ne_nil _ ih1]
      exact ih2
    · rw [List.getLast?_concat]
    · intro x hx
      rcases List.mem_append.mp hx with hx' | hx'
      · exact ih4 x hx'
      · rcases List.mem_singleton.mp hx' with rfl
        exact hval
    · rw [List.chain'_append]
      refine ⟨ih5, List.chain'_singleton _, ?_⟩
      intro x hx y hy
      rw [ih3] at hx
      cases hx
      simp only [List.head?_cons, Option.mem_def, Option.some.injEq] at hy
      subst hy
      exact ⟨hlen.symm, hham⟩

/- ### Claims C5 and C6: score non-negativity and hint monotonicity -/

theorem hint_penalty_zero (f : ℤ) : hint_penalty f 0 = 0 := rfl

theorem hint_penalty_succ (f : ℤ) (h : ℕ) :
    hint_penalty f (h + 1) = hint_penalty f h + f * (h + 1) := by
  unfold hint_penalty
  rw [List.range'_1_concat, List.foldl_append]
  dsimp only [List.foldl]
  push_cast
  ring

theorem hint_penalty_mono (f : ℤ) (hf : 0 ≤ f) {h1 h2 : ℕ} (hle : h1 ≤ h2) :
    hint_penalty f h1 ≤ hint_penalty f h2 := by
  induction h2, hle using Nat.le_induction with
  | base => exact le_rfl
  | succ n hn ih =>
    rw [hint_penalty_succ]
    have hterm : (0 : ℤ) ≤ f * (n + 1) := mul_nonneg hf (by positivity)
    omega

theorem hint_branch_eq (c f : ℤ) (h : ℕ) :
    (if 0 < h then c - hint_penalty f h else c) = c - hint_penalty f h := by
  cases h with
  | zero => rw [if_neg (lt_irrefl 0), hint_penalty_zero, sub_zero]
  | succ n => rw [if_pos (Nat.succ_pos n)]

/-- The value `calculate_score` computes once its three guards have passed,
as a function of the session, the clock, the recorded start time and the
optimal path found by A*.  The arithmetic mirrors `calculate_score` line by
line. -/
def scoreVal (g : Game) (now t0 : ℚ) (opt_path : List Word) : ℤ :=
  let time_taken : ℚ := now - t0
  let optimal_path_length : ℕ := opt_path.length - 1
  let user_path_length : ℕ := g.path_history.length - 1
  let settings := DIFFICULTY_SETTINGS g.difficulty
  let base_score : ℤ := settings.base_score
  let extra_moves : ℕ := user_path_length - optimal_path_length
  let score1 : ℤ := base_score +
    (if extra_moves = 0 then (settings.optimal_path_bonus : ℤ)
     else if extra_moves ≤ 2 then
       ⌊(settings.optimal_path_bonus : ℚ) * (1 - (extra_moves : ℚ) / 5)⌋
     else 0)
  let score2 : ℤ :=
    match g.time_limit with
    | some limit =>
      let time_percentage : ℚ := time_taken / (limit : ℚ)
      if time_percentage < 1 / 2 then
        score1 + ⌊((1 / 2 : ℚ) - time_percentage) * (base_score : ℚ) * (1 / 2)⌋
      else if time_percentage > 4 / 5 then
        score1 - ⌊(time_percentage - 4 / 5) * (base_score : ℚ) * (1 / 2)⌋
      else score1
    | none =>
      score1 - min ⌊time_taken * (settings.time_factor : ℚ)⌋
        ⌊(base_score : ℚ) * (3 / 10)⌋
  let score3 : ℤ :=
    if 0 < extra_moves then score2 - extra_moves * settings.move_factor
    else score2
  let score4 : ℤ :=
    if 0 < g.hints_used then
      score3 - hint_penalty (settings.hint_factor : ℤ) g.hints_used
    else score3
  max 0 score4

theorem calculate_score_none_start {g : Game} {now : ℚ}
    (hst : g.start_time = none) : calculate_score g now = none := by
  unfold calculate_score
  simp only [hst]

theorem calculate_score_none_head {g : Game} {now t0 : ℚ}
    (hst : g.start_time = some t0) (hh : g.path_history.head? = none) :
    calculate_score g now = none := by
  unfold calculate_score
  simp only [hst, hh]

theorem calculate_score_none_astar {g : Game} {now t0 : ℚ} {first : Word}
    (hst : g.start_time = some t0) (hh : g.path_history.head? = some first)
    (ha : a_star_search g.word_set g.banned_words first g.target_word = none) :
    calculate_score g now = none := by
  unfold calculate_score
  simp only [hst, hh, ha]

theorem calculate_score_eq {g : Game} (now : ℚ) {t0 : ℚ} {first : Word}
    {opt : List Word} (hst : g.start_time = some t0)
    (hh : g.path_history.head? = some first)
    (ha : a_star_search g.word_set g.banned_words first g.target_word =
      some opt) :
    calculate_score g now =
      some (scoreVal g now t0 opt, { g with score := scoreVal g now t0 opt }) := by
  unfold calculate_score scoreVal
  simp only [hst, hh, ha]

theorem scoreVal_nonneg (g : Game) (now t0 : ℚ) (opt : List Word) :
    0 ≤ scoreVal g now t0 opt := by
  unfold scoreVal
  dsimp only
  exact le_max_left _ _

theorem scoreVal_hints_mono (g : Game) (now t0 : ℚ) (opt : List Word)
    {h1 h2 : ℕ} (hle : h1 ≤ h2) :
    scoreVal { g with hints_used := h2 } now t0 opt ≤
      scoreVal { g with hints_used := h1 } now t0 opt := by
  unfold scoreVal
  dsimp only
  rw [hint_branch_eq, hint_branch_eq]
  exact max_le_max le_rfl
    (sub_le_sub_left (hint_penalty_mono _ (Int.natCast_nonneg _) hle) _)

/-- **C5**: whenever `calculate_score` is invoked on a session with a
recorded start time, a non-empty path history, and a target reachable from
the session's original start word (the head of the path history), it
returns a score, and that score is at least `0`. -/
theorem C5_calculate_score_nonneg (g : Game) (now t0 : ℚ) (first : Word)
    (hdict : LowercaseDict g.word_set)
    (hst : g.start_time = some t0)
    (hfirst : g.path_history.head? = some first)
    (hflc : Lowercase first)
    (hfv : is_valid_word g.word_set g.banned_words first = true)
    (htv : is_valid_word g.word_set g.banned_words g.target_word = true)
    (hreach : ∃ p, LadderFrom (get_neighbors g.word_set g.banned_words) first
      g.target_word p) :
    ∃ s g', calculate_score g now = some (s, g') ∧ 0 ≤ s := by
  obtain ⟨q, hq, -⟩ := a_star_search_complete g.word_set g.banned_words first
    g.target_word hdict hflc hfv htv hreach
  exact ⟨_, _, calculate_score_eq now hst hfirst hq, scoreVal_nonneg _ _ _ _⟩

/-- A concrete completed beginner session over the dictionary
`["at", "it"]`, used to instantiate the scoring claims. -/
def gscore : Game :=
  ⟨[['a','t'], ['i','t']], ['i','t'], ['i','t'], [['a','t'], ['i','t']],
    some 0, 0, .beginner, (5 : ℕ), ⊤, [], 1000, 0, 300, 2, 25, 50⟩

theorem C5_calculate_score_nonneg_witness :
    ∃ s g', calculate_score gscore 1 = some (s, g') ∧ 0 ≤ s :=
  C5_calculate_score_nonneg gscore 1 0 ['a','t'] (by decide) rfl rfl
    (by decide) (by decide) (by decide)
    ⟨[['a','t'], ['i','t']], rfl, rfl,
      List.chain'_cons.mpr ⟨by decide, List.chain'_singleton _⟩⟩

/-- **C6**: with the path history, elapsed time, difficulty profile and all
other session state fixed, the score returned by `calculate_score` is
non-increasing as `hints_used` increases; the marginal penalty of the
`(h+1)`-st hint is `hint_factor * (h+1)`, and these marginal penalties are
strictly increasing per hint for every difficulty's `hint_factor`. -/
theorem C6_calculate_score_hint_monotone (g : Game) (now : ℚ) (h1 h2 : ℕ)
    (hle : h1 ≤ h2) (s1 s2 : ℤ) (g1 g2 : Game)
    (e1 : calculate_score { g with hints_used := h1 } now = some (s1, g1))
    (e2 : calculate_score { g with hints_used := h2 } now = some (s2, g2)) :
    s2 ≤ s1 ∧
      (∀ d : Difficulty, ∀ h : ℕ,
        hint_penalty ((DIFFICULTY_SETTINGS d).hint_factor : ℤ) (h + 1) =
          hint_penalty ((DIFFICULTY_SETTINGS d).hint_factor : ℤ) h +
            ((DIFFICULTY_SETTINGS d).hint_factor : ℤ) * (h + 1)) ∧
      (∀ d : Difficulty, ∀ h h' : ℕ, h < h' →
        ((DIFFICULTY_SETTINGS d).hint_factor : ℤ) * (h + 1) <
          ((DIFFICULTY_SETTINGS d).hint_factor : ℤ) * (h' + 1)) := by
  refine ⟨?_, fun d h => hint_penalty_succ _ h, fun d h h' hlt => ?_⟩
  · cases hst : g.start_time with
    | none =>
      rw [calculate_score_none_start
        (show ({ g with hints_used := h1 } : Game).start_time = none from
          hst)] at e1
      cases e1
    | some t0 =>
      cases hfi : g.path_history.head? with
      | none =>
        rw [calculate_score_none_head
          (show ({ g with hints_used := h1 } : Game).start_time = some t0 from
            hst)
          (show ({ g with hints_used := h1 } : Game).path_history.head? =
            none from hfi)] at e1
        cases e1
      | some first =>
        cases ha : a_star_search g.word_set g.banned_words first
            g.target_word with
        | none =>
          rw [calculate_score_none_astar
            (show ({ g with hints_used := h1 } : Game).start_time = some t0
              from hst)
            (show ({ g with hints_used := h1 } : Game).path_history.head? =
              some first from hfi)
            (show a_star_search ({ g with hints_used := h1 } : Game).word_set
              ({ g with hints_used := h1 } : Game).banned_words first
              ({ g with hints_used := h1 } : Game).target_word = none from
              ha)] at e1
          cases e1
        | some opt =>
          rw [calculate_score_eq now
            (show ({ g with hints_used := h1 } : Game).start_time = some t0
              from hst)
            (show ({ g with hints_used := h1 } : Game).path_history.head? =
              some first from hfi)
            (show a_star_search ({ g with hints_used := h1 } : Game).word_set
              ({ g with hints_used := h1 } : Game).banned_words first
              ({ g with hints_used := h1 } : Game).target_word = some opt from
              ha)] at e1
          rw [calculate_score_eq now
            (show ({ g with hints_used := h2 } : Game).start_time = some t0
              from hst)
            (show ({ g with hints_used := h2 } : Game).path_history.head? =
              some first from hfi)
            (show a_star_search ({ g with hints_used := h2 } : Game).word_set
              ({ g with hints_used := h2 } : Game).banned_words first
              ({ g with hints_used := h2 } : Game).target_word = some opt from
              ha)] at e2
          rw [Option.some.injEq, Prod.mk.injEq] at e1 e2
          rw [← e1.1, ← e2.1]
          exact scoreVal_hints_mono g now t0 opt hle
  · have hfpos : (0 : ℤ) < ((DIFFICULTY_SETTINGS d).hint_factor : ℤ) := by
      cases d <;> decide
    have hlt' : ((h : ℤ) + 1) < ((h' : ℤ) + 1) := by omega
    exact mul_lt_mul_of_pos_left hlt' hfpos

theorem C6_calculate_score_hint_monotone_witness :
    ∃ s1 s2 : ℤ, ∃ g1 g2 : Game,
      calculate_score { gscore with hints_used := 0 } 1 = some (s1, g1) ∧
        calculate_score { gscore with hints_used := 3 } 1 = some (s2, g2) ∧
        s2 ≤ s1 ∧
        hint_penalty ((DIFFICULTY_SETTINGS Difficulty.beginner).hint_factor : ℤ)
            3 =
          hint_penalty
              ((DIFFICULTY_SETTINGS Difficulty.beginner).hint_factor : ℤ) 2 +
            ((DIFFICULTY_SETTINGS Difficulty.beginner).hint_factor : ℤ) * 3 := by
  have e1 := calculate_score_eq 1
    (show ({ gscore with hints_used := 0 } : Game).start_time = some 0 from rfl)
    (show ({ gscore with hints_used := 0 } : Game).path_history.head? =
      some ['a','t'] from rfl)
    (show a_star_search ({ gscore with hints_used := 0 } : Game).word_set
      ({ gscore with hints_used := 0 } : Game).banned_words ['a','t']
      ({ gscore with hints_used := 0 } : Game).target_word =
      some [['a','t'], ['i','t']] by decide)
  have e2 := calculate_score_eq 1
    (show ({ gscore with hints_used := 3 } : Game).start_time = some 0 from rfl)
    (show ({ gscore with hints_used := 3 } : Game).path_history.head? =
      some ['a','t'] from rfl)
    (show a_star_search ({ gscore with hints_used := 3 } : Game).word_set
      ({ gscore with hints_used := 3 } : Game).banned_words ['a','t']
      ({ gscore with hints_used := 3 } : Game).target_word =
      some [['a','t'], ['i','t']] by decide)
  have hc := C6_calculate_score_hint_monotone gscore 1 0 3 (by omega) _ _ _ _
    e1 e2
  exact ⟨_, _, _, _, e1, e2, hc.1, by simpa using hc.2.1 Difficulty.beginner 2⟩

/- ### Concrete sessions witnessing the session-state claims -/

/-- A trivial random source for the witnesses. -/
def rnd0 : Rnd :=
  ⟨fun _ _ => 0, fun _ _ => [], fun _ _ => [], fun _ _ => [], fun _ _ _ => 0⟩

/-- A fresh, unstarted session over the dictionary `["at", "it"]`. -/
def ginit : Game :=
  ⟨[['a','t'], ['i','t']], [], [], [], none, 0, .beginner, 0, ⊤, [], 0, 0, 0,
    0, 0, 0⟩

/-- The session produced by a successful `start_game` on `ginit`. -/
def sgame : Game :=
  (start_game rnd0 ginit ['a','t'] ['i','t'] .beginner 0).2

theorem C9_session_path_invariant_witness :
    Session ['a','t'] sgame ∧
      sgame.path_history ≠ [] ∧
      sgame.path_history.head? = some ['a','t'] ∧
      sgame.path_history.getLast? = some sgame.current_word ∧
      List.Chain' (fun a b => a.length = b.length ∧ hammingDiff b a = 1)
        sgame.path_history := by
  have h1 : (start_game rnd0 ginit ['a','t'] ['i','t'] .beginner 0).1 = true := by
    decide
  have h2 : start_game rnd0 ginit ['a','t'] ['i','t'] .beginner 0 =
      ((start_game rnd0 ginit ['a','t'] ['i','t'] .beginner 0).1, sgame) :=
    Prod.mk.eta.symm
  rw [h1] at h2
  have hs : Session ['a','t'] sgame :=
    Session.start rnd0 ginit ['a','t'] ['i','t'] .beginner 0 sgame h2
  obtain ⟨hn, hh, hl, -, hc⟩ := C9_session_path_invariant ['a','t'] sgame hs
  exact ⟨hs, hn, hh, hl, hc⟩

theorem C10_start_game_overwrites_config_witness :
    (start_game rnd0 ginit ['a','t'] ['o','f'] .beginner 0).1 = false ∧
      (start_game rnd0 ginit ['a','t'] ['o','f'] .beginner 0).2.hints_remaining =
        ((DIFFICULTY_SETTINGS Difficulty.beginner).hint_limit : WithTop ℕ) ∧
      (start_game rnd0 ginit ['a','t'] ['o','f'] .beginner 0).2.base_score =
        (DIFFICULTY_SETTINGS Difficulty.beginner).base_score := by
  have h1 : (start_game rnd0 ginit ['a','t'] ['o','f'] .beginner 0).1 = false := by
    decide
  obtain ⟨ha, -, hb, -⟩ :=
    C10_start_game_overwrites_config rnd0 ginit ['a','t'] ['o','f'] .beginner 0 h1
  exact ⟨h1, ha, hb⟩

end WordLadderGame
